import Mathlib

/-!
# Verification of the `@cloud-copilot/job` bounded-concurrency job engine

This file gives a shallow embedding, in Lean 4, of the job-runner library:

* `src/job.ts` — the `Job` / `JobResult` / `JobContext` data model;
* `src/ConcurrentWorkerPool.ts` — the promise-per-job worker pool
  (`ConcurrentWorkerPool`) and the one-shot fixed-batch runner (`runJobs`);
* `src/ConcurrentJobQueue.ts` — the accumulate-into-a-list worker pool
  (`ConcurrentJobQueue`), whose engine core is line-for-line identical to the
  one in `ConcurrentWorkerPool` except for the result-delivery strategy.

The engine core (queue, fixed set of worker loops, work-availability signal,
idle waiters, shutdown drain) is embedded once, parameterised by the
result-delivery strategy (`Delivery`), exactly mirroring the duplicated
TypeScript code of the two pool classes.  The cooperative JavaScript runtime
is modelled as a nondeterministic small-step transition system: each step is
one uninterrupted synchronous segment of the original program (from one
suspension point — an `await` — to the next); all mutations of engine state
happen inside such segments, exactly as in the single-threaded event loop.
Splitting a longer synchronous segment into several atomic steps only adds
interleavings, so every safety property proved over this system also holds of
the real program.

Asynchronous job bodies are opaque to the engine; a job is embedded as its
caller-supplied `properties` together with the eventual settlement of the
promise returned by `execute` (`Except R T`: a fulfilment value or a
rejection reason).
-/

/-- `JobResult` from `src/job.ts`: the outcome of a job — `fulfilled` with a
`value` if it succeeded, `rejected` with a `reason` if it threw; both carry
the originating job's `properties`. -/
inductive JobResult (T P R : Type) where
  | fulfilled (value : T) (properties : P)
  | rejected (reason : R) (properties : P)
  deriving DecidableEq, Repr

/-- The `properties` field common to both variants of `JobResult`. -/
def JobResult.properties : JobResult T P R → P
  | .fulfilled _ p => p
  | .rejected _ p => p

deriving instance DecidableEq for Except

/-- `Job` from `src/job.ts`: caller-supplied `properties` plus the job body.
The body `execute` is opaque to the engine; it is embedded by the eventual
settlement of the promise it returns (`.ok value` for fulfilment, `.error
reason` for a throw/rejection). -/
structure Job (T P R : Type) where
  properties : P
  result : Except R T
  deriving DecidableEq, Repr

/-- `JobWithId` from `src/ConcurrentWorkerPool.ts` (lines 3–5): a job plus
the `concurrentJobId` allocated at `enqueue` time.  The accumulate variant
has no ids in the source; there the id is a ghost annotation used only for
the bookkeeping of the proofs. -/
structure JobWithId (T P R : Type) extends Job T P R where
  concurrentJobId : Nat
  deriving DecidableEq, Repr

/-- The outcome produced for a job by the `try/catch` around
`await job.execute(...)` (`ConcurrentWorkerPool.ts` lines 64–68 and 218–222,
`ConcurrentJobQueue.ts` lines 56–60): fulfilment gives a `fulfilled` outcome,
a throw/rejection is caught and gives a `rejected` outcome; both carry
`job.properties`. -/
def settle (j : Job T P R) : JobResult T P R :=
  match j.result with
  | .ok v => .fulfilled v j.properties
  | .error r => .rejected r j.properties

/-- The control state of one worker loop (`ConcurrentWorkerPool.worker`,
lines 38–76; identically `ConcurrentJobQueue.worker`).  A worker is at the
top of its `while` loop, suspended on the work-availability promise,
suspended inside `await job.execute(...)`, or returned. -/
inductive WorkerState (T P R : Type) where
  | looping
  | waitingForWork
  | running (job : JobWithId T P R)
  | terminated
  deriving DecidableEq, Repr

/-- A result-delivery strategy over the shared engine core, with delivery
state `δ`:
`onSubmit d jobId props` is what `enqueue` does at submission time
(`ConcurrentWorkerPool.ts` line 126: `this.resolveMap[jobId] = resolve`;
nothing in the accumulate variant), and `onComplete d jobId out` is what the
worker does with a produced outcome (`ConcurrentWorkerPool.ts` lines 66/68
and 73: resolve the job's promise and delete its `resolveMap` entry;
`ConcurrentJobQueue.ts` lines 57/59: `this.results.push(out)`). -/
structure Delivery (T P R δ : Type) where
  onSubmit : δ → Nat → P → δ
  onComplete : δ → Nat → JobResult T P R → δ

/-- The instance fields of the pool classes (`ConcurrentWorkerPool.ts` lines
17–25, `ConcurrentJobQueue.ts` lines 10–18), plus:

* `workers` holds the control state of each created worker loop (the source
  stores their promises; worker `i` in the list has worker id `i + 1`);
* `workAvailable` is `true` iff `workAvailablePromise` is a pending
  (unresolved) promise, `false` iff it is `null`;
* `nextWaiterId`, `waitingResolvers`, `firedWaiters` model the
  `waitingResolvers` list of idle waiters, with each `waitForIdle` caller
  given a ghost serial number so that "each waiter fires exactly once" is
  expressible; `firedWaiters` is the ghost log of already-resolved waiters;
* `submittedJobs` and `emitted` are ghost append-only logs of all
  submissions and of all delivered outcomes. -/
structure EngineState (T P R δ : Type) where
  jobCounter : Nat
  queue : List (JobWithId T P R)
  activeJobs : Nat
  nextWaiterId : Nat
  waitingResolvers : List Nat
  firedWaiters : List Nat
  workers : List (WorkerState T P R)
  isAcceptingWork : Bool
  workAvailable : Bool
  submittedJobs : List (JobWithId T P R)
  emitted : List (Nat × JobResult T P R)
  delivery : δ
  deriving DecidableEq, Repr

/-- The state of a pool immediately after construction
(`new ConcurrentWorkerPool(concurrency, logger)` /
`new ConcurrentJobQueue(concurrency, logger)`): all fields at their
initialisers, no workers created yet. -/
def initState (d : δ) : EngineState T P R δ where
  jobCounter := 0
  queue := []
  activeJobs := 0
  nextWaiterId := 0
  waitingResolvers := []
  firedWaiters := []
  workers := []
  isAcceptingWork := true
  workAvailable := false
  submittedJobs := []
  emitted := []
  delivery := d

/-- Resolving `workAvailablePromise` makes every worker suspended on it
runnable again (its continuation re-enters the `while` loop). -/
def wakeWorker : WorkerState T P R → WorkerState T P R
  | .waitingForWork => .looping
  | w => w

/-- `notifyWorkersOfNewWork` (`ConcurrentWorkerPool.ts` lines 95–102,
`ConcurrentJobQueue.ts` identically): if a work-availability promise is
pending, resolve it — waking every worker suspended on it — and clear the
slot; otherwise do nothing. -/
def notifyWorkersOfNewWork (s : EngineState T P R δ) : EngineState T P R δ :=
  if s.workAvailable then
    { s with workAvailable := false, workers := s.workers.map wakeWorker }
  else s

/-- `ensureWorkers` (`ConcurrentWorkerPool.ts` lines 87–93,
`ConcurrentJobQueue.ts` lines 344–350): on first use (no workers yet) while
still accepting work, create exactly `concurrency` worker loops. -/
def ensureWorkers (C : Nat) (s : EngineState T P R δ) : EngineState T P R δ :=
  if s.workers.isEmpty ∧ s.isAcceptingWork then
    { s with workers := List.replicate C .looping }
  else s

/-- The body of `enqueue` in the accepting case (`ConcurrentWorkerPool.ts`
lines 120–131): allocate `jobId := jobCounter++`, install the per-job
resolution record (`Delivery.onSubmit`), push the job onto the queue, call
`ensureWorkers`, then `notifyWorkersOfNewWork`.  The promise executor runs
synchronously, so the whole body is one atomic segment.  `submittedJobs`
additionally records the submission in the ghost log. -/
def enqueueBody (D : Delivery T P R δ) (C : Nat) (s : EngineState T P R δ)
    (j : Job T P R) : EngineState T P R δ :=
  let jw : JobWithId T P R := { toJob := j, concurrentJobId := s.jobCounter }
  notifyWorkersOfNewWork (ensureWorkers C
    { s with
      jobCounter := s.jobCounter + 1
      delivery := D.onSubmit s.delivery s.jobCounter j.properties
      queue := s.queue ++ [jw]
      submittedJobs := s.submittedJobs ++ [jw] })

/-- `enqueue` (`ConcurrentWorkerPool.ts` lines 115–132, and
`ConcurrentJobQueue.ts` lines 49–56): throws synchronously after shutdown,
otherwise runs `enqueueBody` and returns the allocated job id. -/
def enqueue (D : Delivery T P R δ) (C : Nat) (s : EngineState T P R δ)
    (j : Job T P R) : Except String (EngineState T P R δ × Nat) :=
  if s.isAcceptingWork then .ok (enqueueBody D C s j, s.jobCounter)
  else .error "Cannot enqueue jobs after shutdown"

/-- `checkIfIdle` (`ConcurrentWorkerPool.ts` lines 104–110): when no job is
active and the queue is empty, resolve every pending idle waiter and clear
the list. -/
def checkIfIdle (s : EngineState T P R δ) : EngineState T P R δ :=
  if s.activeJobs = 0 ∧ s.queue.isEmpty then
    { s with
      firedWaiters := s.firedWaiters ++ s.waitingResolvers
      waitingResolvers := [] }
  else s

/-- `waitForIdle` (`ConcurrentWorkerPool.ts` lines 144–152): the promise
executor runs synchronously — if already idle it resolves immediately
(recorded in `firedWaiters`; the returned flag is `true`), otherwise the
resolver is appended to `waitingResolvers` (flag `false`).  Each call is
given the next ghost waiter serial number. -/
def waitForIdle (s : EngineState T P R δ) : EngineState T P R δ × Bool :=
  if s.activeJobs = 0 ∧ s.queue.isEmpty then
    ({ s with
        firedWaiters := s.firedWaiters ++ [s.nextWaiterId]
        nextWaiterId := s.nextWaiterId + 1 }, true)
  else
    ({ s with
        waitingResolvers := s.waitingResolvers ++ [s.nextWaiterId]
        nextWaiterId := s.nextWaiterId + 1 }, false)

/-- The synchronous segment of a worker after `await job.execute(...)`
settles (`ConcurrentWorkerPool.ts` lines 64–74): produce the outcome from
the settlement (`settle`), deliver it (resolve the per-job promise / push it
onto `results` — `Delivery.onComplete` — recorded in the ghost `emitted`
log), then the `finally` block decrements `activeJobs` and runs
`checkIfIdle`; the loop then continues, so the worker is `looping` again.
The worker is addressed by its surrounding decomposition
`pre ++ running j :: post`. -/
def completeJob (D : Delivery T P R δ) (s : EngineState T P R δ)
    (pre post : List (WorkerState T P R)) (j : JobWithId T P R) :
    EngineState T P R δ :=
  checkIfIdle
    { s with
      delivery := D.onComplete s.delivery j.concurrentJobId (settle j.toJob)
      emitted := s.emitted ++ [(j.concurrentJobId, settle j.toJob)]
      activeJobs := s.activeJobs - 1
      workers := pre ++ .looping :: post }

/-- The synchronous part of `finishAllWork` (`ConcurrentWorkerPool.ts` lines
160–163): set `isAcceptingWork := false`, then wake any sleeping workers. -/
def finishAllWorkBegin (s : EngineState T P R δ) : EngineState T P R δ :=
  notifyWorkersOfNewWork { s with isAcceptingWork := false }

/-- `queueLength` getter (`ConcurrentWorkerPool.ts` lines 172–174). -/
def queueLength (s : EngineState T P R δ) : Nat := s.queue.length

/-- `activeJobCount` getter (`ConcurrentWorkerPool.ts` lines 179–181). -/
def activeJobCount (s : EngineState T P R δ) : Nat := s.activeJobs

/-- One atomic step of the engine: either an external call (`enqueue`,
`waitForIdle`, the two phases of `finishAllWork`) or one synchronous segment
of a worker loop (`ConcurrentWorkerPool.worker`, lines 38–76).  Worker
segments:

* `startJob` — loop iteration that shifts a job off the queue, increments
  `activeJobs`, starts the watchdog and suspends in `await job.execute`
  (lines 40, 51–65);
* `finishJob` — the job's promise settles; outcome produced and delivered,
  `finally` block runs, loop continues (lines 64–74);
* `blockWorker` — the queue is empty but work is still being accepted: arm
  the work-availability promise (creating it if absent) and suspend on it
  (lines 41–48, 78–85);
* `exitWorker` — the queue is empty and work is no longer accepted: the
  worker returns, covering both the inner `return` (lines 42–45) and the
  `while` condition turning false (line 39);
* `shutdownFinish` — `await Promise.all(this.workers)` in `finishAllWork`
  resolves once every worker has returned; then `this.workers = []`
  (lines 165–166). -/
inductive Step (D : Delivery T P R δ) (C : Nat) :
    EngineState T P R δ → EngineState T P R δ → Prop where
  | enqueue (s : EngineState T P R δ) (j : Job T P R)
      (ha : s.isAcceptingWork = true) :
      Step D C s (enqueueBody D C s j)
  | waitForIdleCall (s : EngineState T P R δ) :
      Step D C s (waitForIdle s).1
  | startJob (s : EngineState T P R δ) (pre post : List (WorkerState T P R))
      (j : JobWithId T P R) (rest : List (JobWithId T P R))
      (hw : s.workers = pre ++ .looping :: post)
      (hq : s.queue = j :: rest) :
      Step D C s
        { s with
          queue := rest
          activeJobs := s.activeJobs + 1
          workers := pre ++ .running j :: post }
  | finishJob (s : EngineState T P R δ) (pre post : List (WorkerState T P R))
      (j : JobWithId T P R)
      (hw : s.workers = pre ++ .running j :: post) :
      Step D C s (completeJob D s pre post j)
  | blockWorker (s : EngineState T P R δ) (pre post : List (WorkerState T P R))
      (hw : s.workers = pre ++ .looping :: post)
      (hq : s.queue = [])
      (ha : s.isAcceptingWork = true) :
      Step D C s
        { s with
          workAvailable := true
          workers := pre ++ .waitingForWork :: post }
  | exitWorker (s : EngineState T P R δ) (pre post : List (WorkerState T P R))
      (hw : s.workers = pre ++ .looping :: post)
      (hq : s.queue = [])
      (ha : s.isAcceptingWork = false) :
      Step D C s
        { s with workers := pre ++ .terminated :: post }
  | shutdownBegin (s : EngineState T P R δ) :
      Step D C s (finishAllWorkBegin s)
  | shutdownFinish (s : EngineState T P R δ)
      (hterm : ∀ w ∈ s.workers, w = WorkerState.terminated)
      (ha : s.isAcceptingWork = false) :
      Step D C s { s with workers := ([] : List (WorkerState T P R)) }

/-- States reachable from the freshly constructed pool. -/
inductive Reachable (D : Delivery T P R δ) (C : Nat) (d : δ) :
    EngineState T P R δ → Prop where
  | init : Reachable D C d (initState d)
  | step {s s' : EngineState T P R δ} :
      Reachable D C d s → Step D C s s' → Reachable D C d s'

/-- Finite sequences of engine steps (used for drain/progress arguments). -/
inductive StepSeq (D : Delivery T P R δ) (C : Nat) :
    EngineState T P R δ → EngineState T P R δ → Prop where
  | refl (s : EngineState T P R δ) : StepSeq D C s s
  | tail {s s' s'' : EngineState T P R δ} :
      StepSeq D C s s' → Step D C s' s'' → StepSeq D C s s''

theorem Reachable.stepSeq {D : Delivery T P R δ} {C : Nat} {d : δ}
    {s s' : EngineState T P R δ} (h : Reachable D C d s)
    (hs : StepSeq D C s s') : Reachable D C d s' := by
  induction hs with
  | refl => exact h
  | tail _ hstep ih => exact ih.step hstep

/-- The per-job resolution registry of the promise-per-job variant
(`ConcurrentWorkerPool`): the delivery state is the set of job ids with a
pending resolver in `resolveMap`; `enqueue` installs the id (line 126), job
completion resolves and deletes it (lines 66/68 and 73). -/
def promiseDelivery (T P R : Type) : Delivery T P R (List Nat) where
  onSubmit := fun m id _ => m ++ [id]
  onComplete := fun m id _ => m.erase id

/-! ## Derived observations and helper lemmas -/

/-- A worker currently inside `await job.execute(...)`. -/
def isRunningW : WorkerState T P R → Bool
  | .running _ => true
  | _ => false

/-- Number of workers currently executing a job. -/
def countRunning (ws : List (WorkerState T P R)) : Nat := ws.countP isRunningW

/-- The jobs currently being executed by some worker. -/
def runningJobs : List (WorkerState T P R) → List (JobWithId T P R) :=
  List.filterMap fun w => match w with | .running j => some j | _ => none

/-- The `concurrentJobId`s of a list of jobs. -/
def idsOf (l : List (JobWithId T P R)) : List Nat := l.map (·.concurrentJobId)

/-- The engine is idle: no active job and an empty queue (the condition of
`checkIfIdle` and of the immediate branch of `waitForIdle`). -/
def Idle (s : EngineState T P R δ) : Prop := s.activeJobs = 0 ∧ s.queue = []

@[simp] theorem settle_properties (j : Job T P R) :
    (settle j).properties = j.properties := by
  unfold settle JobResult.properties; cases j.result <;> rfl

@[simp] theorem isRunningW_looping : isRunningW (.looping : WorkerState T P R) = false := rfl

@[simp] theorem isRunningW_waitingForWork :
    isRunningW (.waitingForWork : WorkerState T P R) = false := rfl

@[simp] theorem isRunningW_terminated :
    isRunningW (.terminated : WorkerState T P R) = false := rfl

@[simp] theorem isRunningW_running (j : JobWithId T P R) :
    isRunningW (.running j) = true := rfl

@[simp] theorem countRunning_nil : countRunning ([] : List (WorkerState T P R)) = 0 := rfl

@[simp] theorem countRunning_cons (w : WorkerState T P R) (l : List (WorkerState T P R)) :
    countRunning (w :: l) = countRunning l + (if isRunningW w then 1 else 0) :=
  List.countP_cons _ _ _

@[simp] theorem countRunning_append (l₁ l₂ : List (WorkerState T P R)) :
    countRunning (l₁ ++ l₂) = countRunning l₁ + countRunning l₂ :=
  List.countP_append _ _ _

@[simp] theorem runningJobs_nil : runningJobs ([] : List (WorkerState T P R)) = [] := rfl

@[simp] theorem runningJobs_cons_looping (l : List (WorkerState T P R)) :
    runningJobs (.looping :: l) = runningJobs l := rfl

@[simp] theorem runningJobs_cons_waiting (l : List (WorkerState T P R)) :
    runningJobs (.waitingForWork :: l) = runningJobs l := rfl

@[simp] theorem runningJobs_cons_terminated (l : List (WorkerState T P R)) :
    runningJobs (.terminated :: l) = runningJobs l := rfl

@[simp] theorem runningJobs_cons_running (j : JobWithId T P R)
    (l : List (WorkerState T P R)) :
    runningJobs (.running j :: l) = j :: runningJobs l := rfl

@[simp] theorem runningJobs_append (l₁ l₂ : List (WorkerState T P R)) :
    runningJobs (l₁ ++ l₂) = runningJobs l₁ ++ runningJobs l₂ :=
  List.filterMap_append _ _ _

@[simp] theorem idsOf_nil : idsOf ([] : List (JobWithId T P R)) = [] := rfl

@[simp] theorem idsOf_cons (j : JobWithId T P R) (l : List (JobWithId T P R)) :
    idsOf (j :: l) = j.concurrentJobId :: idsOf l := rfl

@[simp] theorem idsOf_append (l₁ l₂ : List (JobWithId T P R)) :
    idsOf (l₁ ++ l₂) = idsOf l₁ ++ idsOf l₂ := List.map_append _ _ _

@[simp] theorem wakeWorker_waiting :
    wakeWorker (.waitingForWork : WorkerState T P R) = .looping := rfl

theorem wakeWorker_eq_terminated {w : WorkerState T P R} :
    wakeWorker w = .terminated ↔ w = .terminated := by
  cases w <;> simp [wakeWorker]

theorem countRunning_map_wake (ws : List (WorkerState T P R)) :
    countRunning (ws.map wakeWorker) = countRunning ws := by
  induction ws with
  | nil => rfl
  | cons w l ih => cases w <;> simp [wakeWorker, ih]

theorem runningJobs_map_wake (ws : List (WorkerState T P R)) :
    runningJobs (ws.map wakeWorker) = runningJobs ws := by
  induction ws with
  | nil => rfl
  | cons w l ih => cases w <;> simp [wakeWorker, ih]

theorem waiting_not_mem_map_wake (ws : List (WorkerState T P R)) :
    (WorkerState.waitingForWork : WorkerState T P R) ∉ ws.map wakeWorker := by
  intro h
  obtain ⟨w, _, he⟩ := List.mem_map.1 h
  cases w <;> simp [wakeWorker] at he

theorem terminated_mem_map_wake {ws : List (WorkerState T P R)} :
    (WorkerState.terminated : WorkerState T P R) ∈ ws.map wakeWorker ↔
      WorkerState.terminated ∈ ws := by
  constructor
  · intro h
    obtain ⟨w, hw, he⟩ := List.mem_map.1 h
    exact (wakeWorker_eq_terminated.1 he) ▸ hw
  · intro h
    exact List.mem_map.2 ⟨_, h, rfl⟩

theorem all_terminated_map_wake {ws : List (WorkerState T P R)} :
    (∀ w ∈ ws.map wakeWorker, w = WorkerState.terminated) ↔
      (∀ w ∈ ws, w = WorkerState.terminated) := by
  constructor
  · intro h w hw
    have := h (wakeWorker w) (List.mem_map.2 ⟨w, hw, rfl⟩)
    exact wakeWorker_eq_terminated.1 this
  · intro h w hw
    obtain ⟨v, hv, he⟩ := List.mem_map.1 hw
    rw [h v hv] at he
    exact he.symm

theorem countRunning_eq_zero_of_all_terminated {ws : List (WorkerState T P R)}
    (h : ∀ w ∈ ws, w = WorkerState.terminated) : countRunning ws = 0 := by
  induction ws with
  | nil => rfl
  | cons w l ih =>
    have hw := h w (List.mem_cons_self _ _)
    subst hw
    simp [ih fun v hv => h v (List.mem_cons_of_mem _ hv)]

theorem runningJobs_eq_nil_of_all_terminated {ws : List (WorkerState T P R)}
    (h : ∀ w ∈ ws, w = WorkerState.terminated) : runningJobs ws = [] := by
  induction ws with
  | nil => rfl
  | cons w l ih =>
    have hw := h w (List.mem_cons_self _ _)
    subst hw
    simp [ih fun v hv => h v (List.mem_cons_of_mem _ hv)]

/-! ## The inductive invariant of the engine -/

/-- The inductive invariant of the pool engine, established at construction
and preserved by every `Step`.  Conjuncts:

* `workersLen` — `ensureWorkers` creates exactly `C` worker loops, once;
* `activeEq` — `activeJobs` counts exactly the workers inside
  `await job.execute`;
* `armedIff` — the work-availability promise is pending exactly when some
  worker is suspended on it;
* `noLostWakeup` — no worker is ever suspended on the signal while the queue
  is non-empty (a worker arms only in the same synchronous segment in which
  it observed an empty queue, and `enqueue` notifies after pushing);
* `idleFlushed` — whenever the engine is idle, every idle waiter has been
  resolved (level-triggered idle notification);
* `noEarlyTerm` — no worker terminates while work is still accepted;
* `waiterNodup`/`waiterLt` — ghost waiter serial numbers are unique, so each
  `waitForIdle` caller is resolved at most once;
* `emptyWorkersQueue`/`drained` — with positive concurrency, jobs can only
  be queued once workers exist, and once shutdown has begun and every worker
  has returned the queue is empty;
* `ledger` … `idsLt` — every submitted job is, exactly once, either pending
  in the queue, being executed, or delivered as an outcome whose
  `properties` are the originating job's. -/
structure EngineInv (C : Nat) (s : EngineState T P R δ) : Prop where
  workersLen : s.workers.length = 0 ∨ s.workers.length = C
  activeEq : s.activeJobs = countRunning s.workers
  armedIff : s.workAvailable = true ↔
      (WorkerState.waitingForWork : WorkerState T P R) ∈ s.workers
  noLostWakeup : s.queue ≠ [] →
      (WorkerState.waitingForWork : WorkerState T P R) ∉ s.workers
  idleFlushed : s.activeJobs = 0 → s.queue = [] → s.waitingResolvers = []
  noEarlyTerm : s.isAcceptingWork = true →
      (WorkerState.terminated : WorkerState T P R) ∉ s.workers
  waiterNodup : (s.firedWaiters ++ s.waitingResolvers).Nodup
  waiterLt : ∀ i ∈ s.firedWaiters ++ s.waitingResolvers, i < s.nextWaiterId
  emptyWorkersQueue : 1 ≤ C → s.workers = [] → s.queue = []
  drained : 1 ≤ C → s.isAcceptingWork = false →
      (∀ w ∈ s.workers, w = WorkerState.terminated) → s.queue = []
  ledger : List.Perm (idsOf s.submittedJobs)
      (s.emitted.map Prod.fst ++ idsOf s.queue ++ idsOf (runningJobs s.workers))
  submittedNodup : (idsOf s.submittedJobs).Nodup
  queueSub : ∀ j ∈ s.queue, j ∈ s.submittedJobs
  runningSub : ∀ j ∈ runningJobs s.workers, j ∈ s.submittedJobs
  emittedProps : ∀ p ∈ s.emitted,
      ∃ j ∈ s.submittedJobs, j.concurrentJobId = p.1 ∧ p.2.properties = j.properties
  idsLt : ∀ j ∈ s.submittedJobs, j.concurrentJobId < s.jobCounter

theorem engineInv_init (C : Nat) (d : δ) : EngineInv C (initState (T := T) (P := P) (R := R) d) := by
  constructor <;> simp [initState, Idle]

@[simp] theorem wakeWorker_looping :
    wakeWorker (.looping : WorkerState T P R) = .looping := rfl

theorem countRunning_replicate_looping (C : Nat) :
    countRunning (List.replicate C (.looping : WorkerState T P R)) = 0 := by
  induction C with
  | zero => rfl
  | succ n ih => simp [List.replicate, ih]

theorem runningJobs_replicate_looping (C : Nat) :
    runningJobs (List.replicate C (.looping : WorkerState T P R)) = [] := by
  induction C with
  | zero => rfl
  | succ n ih => simp [List.replicate, ih]

/-- Full description of `enqueueBody`: the fields written by `enqueue`'s body
together with what `ensureWorkers` and `notifyWorkersOfNewWork` can do to the
worker list — regardless of which branches fire, the work-availability slot
ends cleared and the worker list keeps its running workers, acquires no
waiting or terminated ones, and is non-empty afterwards unless `C = 0`. -/
theorem enqueueBody_spec (D : Delivery T P R δ) (C : Nat)
    (s : EngineState T P R δ) (j : Job T P R)
    (ha : s.isAcceptingWork = true)
    (harm : s.workAvailable = false →
      (WorkerState.waitingForWork : WorkerState T P R) ∉ s.workers) :
    ∃ ws : List (WorkerState T P R),
      enqueueBody D C s j =
        { s with
          jobCounter := s.jobCounter + 1
          delivery := D.onSubmit s.delivery s.jobCounter j.properties
          queue := s.queue ++ [⟨j, s.jobCounter⟩]
          submittedJobs := s.submittedJobs ++ [⟨j, s.jobCounter⟩]
          workAvailable := false
          workers := ws } ∧
      countRunning ws = countRunning s.workers ∧
      runningJobs ws = runningJobs s.workers ∧
      (WorkerState.waitingForWork : WorkerState T P R) ∉ ws ∧
      ((WorkerState.terminated : WorkerState T P R) ∈ ws →
        (WorkerState.terminated : WorkerState T P R) ∈ s.workers) ∧
      (ws.length = s.workers.length ∨ (s.workers = [] ∧ ws.length = C)) ∧
      (WorkerState.waitingForWork ∈ s.workers → ws = s.workers.map wakeWorker) ∧
      (ws = [] → C = 0) := by
  obtain ⟨jc, q, aj, nw, wr, fw, ws, acc, wa, sj, em, dv⟩ := s
  simp only at ha harm
  subst ha
  by_cases hemp : ws.isEmpty
  · have hws : ws = [] := List.isEmpty_iff.1 hemp
    subst hws
    by_cases hwa : wa
    · subst hwa
      refine ⟨List.replicate C .looping, ?_, ?_⟩
      · simp [enqueueBody, ensureWorkers, notifyWorkersOfNewWork, List.map_replicate]
      · simp [countRunning_replicate_looping, runningJobs_replicate_looping,
          List.mem_replicate, List.eq_nil_iff_forall_not_mem]
    · have hwa' : wa = false := by cases wa <;> simp_all
      subst hwa'
      refine ⟨List.replicate C .looping, ?_, ?_⟩
      · by_cases hC : List.replicate C (.looping : WorkerState T P R) |>.isEmpty
        · have : C = 0 := by
            cases C with
            | zero => rfl
            | succ n => simp [List.replicate] at hC
          subst this
          simp [enqueueBody, ensureWorkers, notifyWorkersOfNewWork]
        · simp [enqueueBody, ensureWorkers, notifyWorkersOfNewWork]
      · simp [countRunning_replicate_looping, runningJobs_replicate_looping,
          List.mem_replicate, List.eq_nil_iff_forall_not_mem]
  · have hne : ws ≠ [] := by
      intro h; subst h; simp at hemp
    by_cases hwa : wa
    · subst hwa
      refine ⟨ws.map wakeWorker, ?_, ?_, ?_, ?_, ?_, ?_, ?_, ?_⟩
      · simp [enqueueBody, ensureWorkers, notifyWorkersOfNewWork, hemp]
      · exact countRunning_map_wake ws
      · exact runningJobs_map_wake ws
      · exact waiting_not_mem_map_wake ws
      · exact fun h => terminated_mem_map_wake.1 h
      · exact Or.inl (List.length_map _ _)
      · exact fun _ => rfl
      · intro h
        exact absurd (List.map_eq_nil_iff.1 h) hne
    · have hwa' : wa = false := by cases wa <;> simp_all
      subst hwa'
      refine ⟨ws, ?_, rfl, rfl, harm rfl, fun h => h, Or.inl rfl, ?_,
        fun h => absurd h hne⟩
      · simp [enqueueBody, ensureWorkers, notifyWorkersOfNewWork, hemp]
      · intro hmem
        exact absurd hmem (harm rfl)

theorem engineInv_enqueueBody {D : Delivery T P R δ} {C : Nat}
    {s : EngineState T P R δ} (hInv : EngineInv C s)
    (ha : s.isAcceptingWork = true) (j : Job T P R) :
    EngineInv C (enqueueBody D C s j) := by
  obtain ⟨ws, heq, hcount, hrun, hwait, hterm, hlen, -, hnil⟩ :=
    enqueueBody_spec D C s j ha (fun hfa => fun hmem =>
      by simp [hInv.armedIff.2 hmem] at hfa)
  rw [heq]
  constructor
  case workersLen =>
    rcases hlen with h | ⟨hw0, hC⟩
    · show ws.length = 0 ∨ ws.length = C
      rw [h]; exact hInv.workersLen
    · exact Or.inr hC
  case activeEq => simpa [hcount] using hInv.activeEq
  case armedIff => simp [hwait]
  case noLostWakeup => intro _; exact hwait
  case idleFlushed => intro _ hq; exact absurd hq (by simp)
  case noEarlyTerm => intro _ hmem; exact hInv.noEarlyTerm ha (hterm hmem)
  case waiterNodup => exact hInv.waiterNodup
  case waiterLt => exact hInv.waiterLt
  case emptyWorkersQueue =>
    intro hC h0
    have := hnil h0
    omega
  case drained => intro _ hacc _; simp [ha] at hacc
  case ledger =>
    refine List.perm_iff_count.2 fun a => ?_
    have h := hInv.ledger.count_eq a
    by_cases hajc : a = s.jobCounter <;>
      simp [List.count_append, List.count_cons, hajc, hrun] at h ⊢ <;> omega
  case submittedNodup =>
    have hperm : List.Perm (idsOf (s.submittedJobs ++ [⟨j, s.jobCounter⟩]))
        (s.jobCounter :: idsOf s.submittedJobs) := by
      simp only [idsOf_append, idsOf_cons, idsOf_nil]
      exact List.perm_append_singleton _ _
    refine hperm.symm.nodup ?_
    refine List.nodup_cons.2 ⟨?_, hInv.submittedNodup⟩
    intro hmem
    obtain ⟨jw, hjw, hid⟩ := List.mem_map.1 hmem
    exact absurd (hid ▸ hInv.idsLt jw hjw) (by omega)
  case queueSub =>
    intro q hq
    rcases List.mem_append.1 hq with h | h
    · exact List.mem_append.2 (Or.inl (hInv.queueSub _ h))
    · exact List.mem_append.2 (Or.inr h)
  case runningSub =>
    intro q hq
    rw [hrun] at hq
    exact List.mem_append.2 (Or.inl (hInv.runningSub _ hq))
  case emittedProps =>
    intro p hp
    obtain ⟨jw, hjw, h1, h2⟩ := hInv.emittedProps p hp
    exact ⟨jw, List.mem_append.2 (Or.inl hjw), h1, h2⟩
  case idsLt =>
    intro jw hjw
    show jw.concurrentJobId < s.jobCounter + 1
    rcases List.mem_append.1 hjw with h | h
    · have := hInv.idsLt jw h; omega
    · have hjw' : jw = ⟨j, s.jobCounter⟩ := by simpa using h
      subst hjw'
      show s.jobCounter < s.jobCounter + 1
      omega

theorem nodup_append_fresh {l : List Nat} {n : Nat} (hn : l.Nodup)
    (hlt : ∀ i ∈ l, i < n) : (l ++ [n]).Nodup := by
  refine ((List.perm_append_singleton _ _).symm.nodup) ?_
  refine List.nodup_cons.2 ⟨?_, hn⟩
  intro hmem
  exact absurd (hlt n hmem) (by omega)

theorem engineInv_waitForIdle {C : Nat} {s : EngineState T P R δ}
    (hInv : EngineInv C s) : EngineInv C (waitForIdle s).1 := by
  unfold waitForIdle
  split
  next hidle =>
    have hq : s.queue = [] := List.isEmpty_iff.1 hidle.2
    have hwr : s.waitingResolvers = [] := hInv.idleFlushed hidle.1 hq
    constructor
    case workersLen => exact hInv.workersLen
    case activeEq => exact hInv.activeEq
    case armedIff => exact hInv.armedIff
    case noLostWakeup => exact hInv.noLostWakeup
    case idleFlushed => exact hInv.idleFlushed
    case noEarlyTerm => exact hInv.noEarlyTerm
    case waiterNodup =>
      show ((s.firedWaiters ++ [s.nextWaiterId]) ++ s.waitingResolvers).Nodup
      rw [hwr, List.append_nil]
      refine nodup_append_fresh ?_ ?_
      · have h := hInv.waiterNodup
        rw [hwr, List.append_nil] at h
        exact h
      · intro i hi
        exact hInv.waiterLt i (List.mem_append.2 (Or.inl hi))
    case waiterLt =>
      intro i hi
      show i < s.nextWaiterId + 1
      rcases List.mem_append.1 hi with h | h
      · rcases List.mem_append.1 h with h' | h'
        · have := hInv.waiterLt i (List.mem_append.2 (Or.inl h')); omega
        · simp at h'; omega
      · have := hInv.waiterLt i (List.mem_append.2 (Or.inr h)); omega
    case emptyWorkersQueue => exact hInv.emptyWorkersQueue
    case drained => exact hInv.drained
    case ledger => exact hInv.ledger
    case submittedNodup => exact hInv.submittedNodup
    case queueSub => exact hInv.queueSub
    case runningSub => exact hInv.runningSub
    case emittedProps => exact hInv.emittedProps
    case idsLt => exact hInv.idsLt
  next hnidle =>
    constructor
    case workersLen => exact hInv.workersLen
    case activeEq => exact hInv.activeEq
    case armedIff => exact hInv.armedIff
    case noLostWakeup => exact hInv.noLostWakeup
    case idleFlushed =>
      intro h1 h2
      exact absurd ⟨h1, List.isEmpty_iff.2 h2⟩ hnidle
    case noEarlyTerm => exact hInv.noEarlyTerm
    case waiterNodup =>
      show (s.firedWaiters ++ (s.waitingResolvers ++ [s.nextWaiterId])).Nodup
      rw [← List.append_assoc]
      exact nodup_append_fresh hInv.waiterNodup hInv.waiterLt
    case waiterLt =>
      intro i hi
      show i < s.nextWaiterId + 1
      rw [show s.firedWaiters ++ (s.waitingResolvers ++ [s.nextWaiterId]) =
        (s.firedWaiters ++ s.waitingResolvers) ++ [s.nextWaiterId] from
        (List.append_assoc _ _ _).symm] at hi
      rcases List.mem_append.1 hi with h | h
      · have := hInv.waiterLt i h; omega
      · simp at h; omega
    case emptyWorkersQueue => exact hInv.emptyWorkersQueue
    case drained => exact hInv.drained
    case ledger => exact hInv.ledger
    case submittedNodup => exact hInv.submittedNodup
    case queueSub => exact hInv.queueSub
    case runningSub => exact hInv.runningSub
    case emittedProps => exact hInv.emittedProps
    case idsLt => exact hInv.idsLt

theorem engineInv_startJob {C : Nat} {s : EngineState T P R δ}
    (hInv : EngineInv C s) (pre post : List (WorkerState T P R))
    (j : JobWithId T P R) (rest : List (JobWithId T P R))
    (hw : s.workers = pre ++ .looping :: post)
    (hq : s.queue = j :: rest) :
    EngineInv C
      { s with
        queue := rest
        activeJobs := s.activeJobs + 1
        workers := pre ++ .running j :: post } := by
  have hjq : j ∈ s.queue := by rw [hq]; exact List.mem_cons_self _ _
  constructor
  case workersLen =>
    show (pre ++ WorkerState.running j :: post).length = 0 ∨ _ = C
    have hlen : (pre ++ (WorkerState.running j : WorkerState T P R) :: post).length
        = s.workers.length := by rw [hw]; simp
    rw [hlen]; exact hInv.workersLen
  case activeEq =>
    show s.activeJobs + 1 = countRunning (pre ++ .running j :: post)
    have h := hInv.activeEq
    rw [hw] at h
    simp at h ⊢
    omega
  case armedIff =>
    have h := hInv.armedIff
    rw [hw] at h
    simp only [List.mem_append, List.mem_cons] at h ⊢
    simpa using h
  case noLostWakeup =>
    intro hrest
    have h := hInv.noLostWakeup (by rw [hq]; simp)
    rw [hw] at h
    simp only [List.mem_append, List.mem_cons] at h ⊢
    simpa using h
  case idleFlushed =>
    intro h1
    exact absurd h1 (Nat.succ_ne_zero _)
  case noEarlyTerm =>
    intro hacc
    have h := hInv.noEarlyTerm hacc
    rw [hw] at h
    simp only [List.mem_append, List.mem_cons] at h ⊢
    simpa using h
  case waiterNodup => exact hInv.waiterNodup
  case waiterLt => exact hInv.waiterLt
  case emptyWorkersQueue =>
    intro _ h0
    exact absurd h0 (by simp)
  case drained =>
    intro _ _ hterm
    have := hterm (.running j) (by simp)
    simp at this
  case ledger =>
    refine List.perm_iff_count.2 fun a => ?_
    have h := hInv.ledger.count_eq a
    rw [hw, hq] at h
    by_cases haj : a = j.concurrentJobId <;>
      simp [List.count_append, List.count_cons, haj] at h ⊢ <;> omega
  case submittedNodup => exact hInv.submittedNodup
  case queueSub =>
    intro q hqm
    exact hInv.queueSub q (by rw [hq]; exact List.mem_cons_of_mem _ hqm)
  case runningSub =>
    intro q hqm
    simp only [runningJobs_append, runningJobs_cons_running, List.mem_append,
      List.mem_cons] at hqm
    rcases hqm with h | h | h
    · refine hInv.runningSub q ?_
      rw [hw]; simp only [runningJobs_append, runningJobs_cons_looping,
        List.mem_append]
      exact Or.inl h
    · exact h ▸ hInv.queueSub j hjq
    · refine hInv.runningSub q ?_
      rw [hw]; simp only [runningJobs_append, runningJobs_cons_looping,
        List.mem_append]
      exact Or.inr h
  case emittedProps => exact hInv.emittedProps
  case idsLt => exact hInv.idsLt

theorem engineInv_finishJob {D : Delivery T P R δ} {C : Nat}
    {s : EngineState T P R δ} (hInv : EngineInv C s)
    (pre post : List (WorkerState T P R)) (j : JobWithId T P R)
    (hw : s.workers = pre ++ .running j :: post) :
    EngineInv C (completeJob D s pre post j) := by
  have hjmem : j ∈ runningJobs s.workers := by rw [hw]; simp
  have hjsub : j ∈ s.submittedJobs := hInv.runningSub j hjmem
  have hactive : s.activeJobs = countRunning pre + countRunning post + 1 := by
    have h := hInv.activeEq
    rw [hw] at h
    simp at h
    omega
  unfold completeJob checkIfIdle
  split
  next hidle =>
    constructor
    case workersLen =>
      show (pre ++ WorkerState.looping :: post).length = 0 ∨ _ = C
      have hlen : (pre ++ (WorkerState.looping : WorkerState T P R) :: post).length
          = s.workers.length := by rw [hw]; simp
      rw [hlen]; exact hInv.workersLen
    case activeEq =>
      show s.activeJobs - 1 = countRunning (pre ++ .looping :: post)
      simp
      omega
    case armedIff =>
      have h := hInv.armedIff
      rw [hw] at h
      simp only [List.mem_append, List.mem_cons] at h ⊢
      simpa using h
    case noLostWakeup =>
      intro hqne
      have h := hInv.noLostWakeup hqne
      rw [hw] at h
      simp only [List.mem_append, List.mem_cons] at h ⊢
      simpa using h
    case idleFlushed => intro _ _; rfl
    case noEarlyTerm =>
      intro hacc
      have h := hInv.noEarlyTerm hacc
      rw [hw] at h
      simp only [List.mem_append, List.mem_cons] at h ⊢
      simpa using h
    case waiterNodup =>
      show ((s.firedWaiters ++ s.waitingResolvers) ++ []).Nodup
      rw [List.append_nil]
      exact hInv.waiterNodup
    case waiterLt =>
      intro i hi
      rw [List.append_nil] at hi
      exact hInv.waiterLt i hi
    case emptyWorkersQueue =>
      intro _ h0
      exact absurd h0 (by simp)
    case drained =>
      intro _ _ hterm
      have := hterm (.looping) (by simp)
      simp at this
    case ledger =>
      refine List.perm_iff_count.2 fun a => ?_
      have h := hInv.ledger.count_eq a
      rw [hw] at h
      by_cases haj : a = j.concurrentJobId <;>
        simp [List.count_append, List.count_cons, haj] at h ⊢ <;> omega
    case submittedNodup => exact hInv.submittedNodup
    case queueSub => exact hInv.queueSub
    case runningSub =>
      intro q hqm
      simp only [runningJobs_append, runningJobs_cons_looping,
        List.mem_append] at hqm
      refine hInv.runningSub q ?_
      rw [hw]
      simp only [runningJobs_append, runningJobs_cons_running, List.mem_append,
        List.mem_cons]
      rcases hqm with h | h
      · exact Or.inl h
      · exact Or.inr (Or.inr h)
    case emittedProps =>
      intro p hp
      rcases List.mem_append.1 hp with h | h
      · exact hInv.emittedProps p h
      · have hp' : p = (j.concurrentJobId, settle j.toJob) := by simpa using h
        subst hp'
        exact ⟨j, hjsub, rfl, by simp⟩
    case idsLt => exact hInv.idsLt
  next hnidle =>
    constructor
    case workersLen =>
      show (pre ++ WorkerState.looping :: post).length = 0 ∨ _ = C
      have hlen : (pre ++ (WorkerState.looping : WorkerState T P R) :: post).length
          = s.workers.length := by rw [hw]; simp
      rw [hlen]; exact hInv.workersLen
    case activeEq =>
      show s.activeJobs - 1 = countRunning (pre ++ .looping :: post)
      simp
      omega
    case armedIff =>
      have h := hInv.armedIff
      rw [hw] at h
      simp only [List.mem_append, List.mem_cons] at h ⊢
      simpa using h
    case noLostWakeup =>
      intro hqne
      have h := hInv.noLostWakeup hqne
      rw [hw] at h
      simp only [List.mem_append, List.mem_cons] at h ⊢
      simpa using h
    case idleFlushed =>
      intro h1 h2
      exact absurd ⟨h1, List.isEmpty_iff.2 h2⟩ hnidle
    case noEarlyTerm =>
      intro hacc
      have h := hInv.noEarlyTerm hacc
      rw [hw] at h
      simp only [List.mem_append, List.mem_cons] at h ⊢
      simpa using h
    case waiterNodup => exact hInv.waiterNodup
    case waiterLt => exact hInv.waiterLt
    case emptyWorkersQueue =>
      intro _ h0
      exact absurd h0 (by simp)
    case drained =>
      intro _ _ hterm
      have := hterm (.looping) (by simp)
      simp at this
    case ledger =>
      refine List.perm_iff_count.2 fun a => ?_
      have h := hInv.ledger.count_eq a
      rw [hw] at h
      by_cases haj : a = j.concurrentJobId <;>
        simp [List.count_append, List.count_cons, haj] at h ⊢ <;> omega
    case submittedNodup => exact hInv.submittedNodup
    case queueSub => exact hInv.queueSub
    case runningSub =>
      intro q hqm
      simp only [runningJobs_append, runningJobs_cons_looping,
        List.mem_append] at hqm
      refine hInv.runningSub q ?_
      rw [hw]
      simp only [runningJobs_append, runningJobs_cons_running, List.mem_append,
        List.mem_cons]
      rcases hqm with h | h
      · exact Or.inl h
      · exact Or.inr (Or.inr h)
    case emittedProps =>
      intro p hp
      rcases List.mem_append.1 hp with h | h
      · exact hInv.emittedProps p h
      · have hp' : p = (j.concurrentJobId, settle j.toJob) := by simpa using h
        subst hp'
        exact ⟨j, hjsub, rfl, by simp⟩
    case idsLt => exact hInv.idsLt

theorem engineInv_blockWorker {C : Nat} {s : EngineState T P R δ}
    (hInv : EngineInv C s) (pre post : List (WorkerState T P R))
    (hw : s.workers = pre ++ .looping :: post)
    (hq : s.queue = []) :
    EngineInv C
      { s with
        workAvailable := true
        workers := pre ++ .waitingForWork :: post } := by
  constructor
  case workersLen =>
    show (pre ++ WorkerState.waitingForWork :: post).length = 0 ∨ _ = C
    have hlen : (pre ++ (WorkerState.waitingForWork : WorkerState T P R) :: post).length
        = s.workers.length := by rw [hw]; simp
    rw [hlen]; exact hInv.workersLen
  case activeEq =>
    show s.activeJobs = countRunning (pre ++ .waitingForWork :: post)
    have h := hInv.activeEq
    rw [hw] at h
    simp at h ⊢
    omega
  case armedIff => simp
  case noLostWakeup => intro hqne; exact absurd hq hqne
  case idleFlushed => exact hInv.idleFlushed
  case noEarlyTerm =>
    intro hacc
    have h := hInv.noEarlyTerm hacc
    rw [hw] at h
    simp only [List.mem_append, List.mem_cons] at h ⊢
    simpa using h
  case waiterNodup => exact hInv.waiterNodup
  case waiterLt => exact hInv.waiterLt
  case emptyWorkersQueue =>
    intro _ h0
    exact absurd h0 (by simp)
  case drained =>
    intro _ _ _
    exact hq
  case ledger =>
    refine List.perm_iff_count.2 fun a => ?_
    have h := hInv.ledger.count_eq a
    rw [hw] at h
    simp [List.count_append, List.count_cons] at h ⊢
    omega
  case submittedNodup => exact hInv.submittedNodup
  case queueSub => exact hInv.queueSub
  case runningSub =>
    intro q hqm
    simp only [runningJobs_append, runningJobs_cons_waiting,
      List.mem_append] at hqm
    refine hInv.runningSub q ?_
    rw [hw]
    simp only [runningJobs_append, runningJobs_cons_looping, List.mem_append]
    exact hqm
  case emittedProps => exact hInv.emittedProps
  case idsLt => exact hInv.idsLt

theorem engineInv_exitWorker {C : Nat} {s : EngineState T P R δ}
    (hInv : EngineInv C s) (pre post : List (WorkerState T P R))
    (hw : s.workers = pre ++ .looping :: post)
    (hq : s.queue = [])
    (ha : s.isAcceptingWork = false) :
    EngineInv C { s with workers := pre ++ .terminated :: post } := by
  constructor
  case workersLen =>
    show (pre ++ WorkerState.terminated :: post).length = 0 ∨ _ = C
    have hlen : (pre ++ (WorkerState.terminated : WorkerState T P R) :: post).length
        = s.workers.length := by rw [hw]; simp
    rw [hlen]; exact hInv.workersLen
  case activeEq =>
    show s.activeJobs = countRunning (pre ++ .terminated :: post)
    have h := hInv.activeEq
    rw [hw] at h
    simp at h ⊢
    omega
  case armedIff =>
    have h := hInv.armedIff
    rw [hw] at h
    simp only [List.mem_append, List.mem_cons] at h ⊢
    simpa using h
  case noLostWakeup => intro hqne; exact absurd hq hqne
  case idleFlushed => exact hInv.idleFlushed
  case noEarlyTerm =>
    intro hacc
    rw [ha] at hacc
    cases hacc
  case waiterNodup => exact hInv.waiterNodup
  case waiterLt => exact hInv.waiterLt
  case emptyWorkersQueue =>
    intro _ h0
    exact absurd h0 (by simp)
  case drained =>
    intro _ _ _
    exact hq
  case ledger =>
    refine List.perm_iff_count.2 fun a => ?_
    have h := hInv.ledger.count_eq a
    rw [hw] at h
    simp [List.count_append, List.count_cons] at h ⊢
    omega
  case submittedNodup => exact hInv.submittedNodup
  case queueSub => exact hInv.queueSub
  case runningSub =>
    intro q hqm
    simp only [runningJobs_append, runningJobs_cons_terminated,
      List.mem_append] at hqm
    refine hInv.runningSub q ?_
    rw [hw]
    simp only [runningJobs_append, runningJobs_cons_looping, List.mem_append]
    exact hqm
  case emittedProps => exact hInv.emittedProps
  case idsLt => exact hInv.idsLt

theorem engineInv_shutdownBegin {C : Nat} {s : EngineState T P R δ}
    (hInv : EngineInv C s) : EngineInv C (finishAllWorkBegin s) := by
  unfold finishAllWorkBegin notifyWorkersOfNewWork
  split
  next harm =>
    have harm' : s.workAvailable = true := harm
    constructor
    case workersLen =>
      show (s.workers.map wakeWorker).length = 0 ∨ _ = C
      rw [List.length_map]
      exact hInv.workersLen
    case activeEq =>
      show s.activeJobs = countRunning (s.workers.map wakeWorker)
      rw [countRunning_map_wake]
      exact hInv.activeEq
    case armedIff =>
      constructor
      · intro h; cases h
      · intro h; exact absurd h (waiting_not_mem_map_wake _)
    case noLostWakeup =>
      intro _
      exact waiting_not_mem_map_wake _
    case idleFlushed => exact hInv.idleFlushed
    case noEarlyTerm => intro h; cases h
    case waiterNodup => exact hInv.waiterNodup
    case waiterLt => exact hInv.waiterLt
    case emptyWorkersQueue =>
      intro hC h0
      exact hInv.emptyWorkersQueue hC (List.map_eq_nil_iff.1 h0)
    case drained =>
      intro hC _ hterm
      have hterm' : ∀ w ∈ s.workers, w = WorkerState.terminated :=
        all_terminated_map_wake.1 hterm
      by_cases hacc : s.isAcceptingWork = true
      · cases hws : s.workers with
        | nil => exact hInv.emptyWorkersQueue hC hws
        | cons w l =>
          have hmem : w ∈ s.workers := by rw [hws]; exact List.mem_cons_self _ _
          have := hterm' w hmem
          subst this
          exact absurd hmem (hInv.noEarlyTerm hacc)
      · have hacc' : s.isAcceptingWork = false := by
          cases h : s.isAcceptingWork
          · rfl
          · exact absurd h hacc
        exact hInv.drained hC hacc' hterm'
    case ledger =>
      show List.Perm (idsOf s.submittedJobs)
        (s.emitted.map Prod.fst ++ idsOf s.queue ++
          idsOf (runningJobs (s.workers.map wakeWorker)))
      rw [runningJobs_map_wake]
      exact hInv.ledger
    case submittedNodup => exact hInv.submittedNodup
    case queueSub => exact hInv.queueSub
    case runningSub =>
      intro q hqm
      rw [runningJobs_map_wake] at hqm
      exact hInv.runningSub q hqm
    case emittedProps => exact hInv.emittedProps
    case idsLt => exact hInv.idsLt
  next harm =>
    have harm' : s.workAvailable = false := by
      cases h : s.workAvailable
      · rfl
      · exact absurd h harm
    constructor
    case workersLen => exact hInv.workersLen
    case activeEq => exact hInv.activeEq
    case armedIff =>
      constructor
      · intro h
        rw [show ({ s with isAcceptingWork := false } :
            EngineState T P R δ).workAvailable = s.workAvailable from rfl,
          harm'] at h
        cases h
      · intro h
        exact absurd (hInv.armedIff.2 h) (by rw [harm']; simp)
    case noLostWakeup =>
      intro hqne
      intro hmem
      exact absurd (hInv.armedIff.2 hmem) (by rw [harm']; simp)
    case idleFlushed => exact hInv.idleFlushed
    case noEarlyTerm => intro h; cases h
    case waiterNodup => exact hInv.waiterNodup
    case waiterLt => exact hInv.waiterLt
    case emptyWorkersQueue => exact hInv.emptyWorkersQueue
    case drained =>
      intro hC _ hterm
      by_cases hacc : s.isAcceptingWork = true
      · cases hws : s.workers with
        | nil => exact hInv.emptyWorkersQueue hC hws
        | cons w l =>
          have hmem : w ∈ s.workers := by rw [hws]; exact List.mem_cons_self _ _
          have hwterm := hterm w (by rw [show ({ s with isAcceptingWork := false } :
            EngineState T P R δ).workers = s.workers from rfl]; exact hmem)
          subst hwterm
          exact absurd hmem (hInv.noEarlyTerm hacc)
      · have hacc' : s.isAcceptingWork = false := by
          cases h : s.isAcceptingWork
          · rfl
          · exact absurd h hacc
        exact hInv.drained hC hacc' hterm
    case ledger => exact hInv.ledger
    case submittedNodup => exact hInv.submittedNodup
    case queueSub => exact hInv.queueSub
    case runningSub => exact hInv.runningSub
    case emittedProps => exact hInv.emittedProps
    case idsLt => exact hInv.idsLt

theorem engineInv_shutdownFinish {C : Nat} {s : EngineState T P R δ}
    (hInv : EngineInv C s)
    (hterm : ∀ w ∈ s.workers, w = WorkerState.terminated)
    (ha : s.isAcceptingWork = false) :
    EngineInv C { s with workers := ([] : List (WorkerState T P R)) } := by
  constructor
  case workersLen => exact Or.inl rfl
  case activeEq =>
    show s.activeJobs = countRunning ([] : List (WorkerState T P R))
    rw [countRunning_nil, hInv.activeEq]
    exact countRunning_eq_zero_of_all_terminated hterm
  case armedIff =>
    constructor
    · intro h
      have := hterm _ (hInv.armedIff.1 h)
      cases this
    · intro h
      cases h
  case noLostWakeup => intro _ h; cases h
  case idleFlushed => exact hInv.idleFlushed
  case noEarlyTerm =>
    intro hacc
    rw [ha] at hacc
    cases hacc
  case waiterNodup => exact hInv.waiterNodup
  case waiterLt => exact hInv.waiterLt
  case emptyWorkersQueue =>
    intro hC _
    exact hInv.drained hC ha hterm
  case drained =>
    intro hC _ _
    exact hInv.drained hC ha hterm
  case ledger =>
    show List.Perm (idsOf s.submittedJobs)
      (s.emitted.map Prod.fst ++ idsOf s.queue ++
        idsOf (runningJobs ([] : List (WorkerState T P R))))
    have h := hInv.ledger
    rw [runningJobs_eq_nil_of_all_terminated hterm] at h
    simpa using h
  case submittedNodup => exact hInv.submittedNodup
  case queueSub => exact hInv.queueSub
  case runningSub => intro q hqm; simp at hqm
  case emittedProps => exact hInv.emittedProps
  case idsLt => exact hInv.idsLt

theorem engineInv_step {D : Delivery T P R δ} {C : Nat}
    {s s' : EngineState T P R δ} (hInv : EngineInv C s)
    (h : Step D C s s') : EngineInv C s' := by
  cases h with
  | enqueue j ha => exact engineInv_enqueueBody hInv ha j
  | waitForIdleCall => exact engineInv_waitForIdle hInv
  | startJob pre post j rest hw hq =>
    exact engineInv_startJob hInv pre post j rest hw hq
  | finishJob pre post j hw => exact engineInv_finishJob hInv pre post j hw
  | blockWorker pre post hw hq ha =>
    exact engineInv_blockWorker hInv pre post hw hq
  | exitWorker pre post hw hq ha =>
    exact engineInv_exitWorker hInv pre post hw hq ha
  | shutdownBegin => exact engineInv_shutdownBegin hInv
  | shutdownFinish hterm ha => exact engineInv_shutdownFinish hInv hterm ha

/-- Every state reachable from a freshly constructed pool satisfies the
engine invariant. -/
theorem reachable_engineInv {D : Delivery T P R δ} {C : Nat} {d : δ}
    {s : EngineState T P R δ} (h : Reachable D C d s) : EngineInv C s := by
  induction h with
  | init => exact engineInv_init C d
  | step _ hstep ih => exact engineInv_step ih hstep

@[simp] theorem notify_jobCounter (s : EngineState T P R δ) :
    (notifyWorkersOfNewWork s).jobCounter = s.jobCounter := by
  unfold notifyWorkersOfNewWork; split <;> rfl

@[simp] theorem notify_queue (s : EngineState T P R δ) :
    (notifyWorkersOfNewWork s).queue = s.queue := by
  unfold notifyWorkersOfNewWork; split <;> rfl

@[simp] theorem notify_activeJobs (s : EngineState T P R δ) :
    (notifyWorkersOfNewWork s).activeJobs = s.activeJobs := by
  unfold notifyWorkersOfNewWork; split <;> rfl

@[simp] theorem notify_nextWaiterId (s : EngineState T P R δ) :
    (notifyWorkersOfNewWork s).nextWaiterId = s.nextWaiterId := by
  unfold notifyWorkersOfNewWork; split <;> rfl

@[simp] theorem notify_waitingResolvers (s : EngineState T P R δ) :
    (notifyWorkersOfNewWork s).waitingResolvers = s.waitingResolvers := by
  unfold notifyWorkersOfNewWork; split <;> rfl

@[simp] theorem notify_firedWaiters (s : EngineState T P R δ) :
    (notifyWorkersOfNewWork s).firedWaiters = s.firedWaiters := by
  unfold notifyWorkersOfNewWork; split <;> rfl

@[simp] theorem notify_isAcceptingWork (s : EngineState T P R δ) :
    (notifyWorkersOfNewWork s).isAcceptingWork = s.isAcceptingWork := by
  unfold notifyWorkersOfNewWork; split <;> rfl

@[simp] theorem notify_submittedJobs (s : EngineState T P R δ) :
    (notifyWorkersOfNewWork s).submittedJobs = s.submittedJobs := by
  unfold notifyWorkersOfNewWork; split <;> rfl

@[simp] theorem notify_emitted (s : EngineState T P R δ) :
    (notifyWorkersOfNewWork s).emitted = s.emitted := by
  unfold notifyWorkersOfNewWork; split <;> rfl

@[simp] theorem notify_delivery (s : EngineState T P R δ) :
    (notifyWorkersOfNewWork s).delivery = s.delivery := by
  unfold notifyWorkersOfNewWork; split <;> rfl

@[simp] theorem notify_workAvailable (s : EngineState T P R δ) :
    (notifyWorkersOfNewWork s).workAvailable = false ∨
      notifyWorkersOfNewWork s = s := by
  unfold notifyWorkersOfNewWork; split
  · exact Or.inl rfl
  · exact Or.inr rfl

@[simp] theorem ensure_jobCounter (C : Nat) (s : EngineState T P R δ) :
    (ensureWorkers C s).jobCounter = s.jobCounter := by
  unfold ensureWorkers; split <;> rfl

@[simp] theorem ensure_queue (C : Nat) (s : EngineState T P R δ) :
    (ensureWorkers C s).queue = s.queue := by
  unfold ensureWorkers; split <;> rfl

@[simp] theorem ensure_activeJobs (C : Nat) (s : EngineState T P R δ) :
    (ensureWorkers C s).activeJobs = s.activeJobs := by
  unfold ensureWorkers; split <;> rfl

@[simp] theorem ensure_nextWaiterId (C : Nat) (s : EngineState T P R δ) :
    (ensureWorkers C s).nextWaiterId = s.nextWaiterId := by
  unfold ensureWorkers; split <;> rfl

@[simp] theorem ensure_waitingResolvers (C : Nat) (s : EngineState T P R δ) :
    (ensureWorkers C s).waitingResolvers = s.waitingResolvers := by
  unfold ensureWorkers; split <;> rfl

@[simp] theorem ensure_firedWaiters (C : Nat) (s : EngineState T P R δ) :
    (ensureWorkers C s).firedWaiters = s.firedWaiters := by
  unfold ensureWorkers; split <;> rfl

@[simp] theorem ensure_isAcceptingWork (C : Nat) (s : EngineState T P R δ) :
    (ensureWorkers C s).isAcceptingWork = s.isAcceptingWork := by
  unfold ensureWorkers; split <;> rfl

@[simp] theorem ensure_workAvailable (C : Nat) (s : EngineState T P R δ) :
    (ensureWorkers C s).workAvailable = s.workAvailable := by
  unfold ensureWorkers; split <;> rfl

@[simp] theorem ensure_submittedJobs (C : Nat) (s : EngineState T P R δ) :
    (ensureWorkers C s).submittedJobs = s.submittedJobs := by
  unfold ensureWorkers; split <;> rfl

@[simp] theorem ensure_emitted (C : Nat) (s : EngineState T P R δ) :
    (ensureWorkers C s).emitted = s.emitted := by
  unfold ensureWorkers; split <;> rfl

@[simp] theorem ensure_delivery (C : Nat) (s : EngineState T P R δ) :
    (ensureWorkers C s).delivery = s.delivery := by
  unfold ensureWorkers; split <;> rfl

@[simp] theorem checkIfIdle_jobCounter (s : EngineState T P R δ) :
    (checkIfIdle s).jobCounter = s.jobCounter := by
  unfold checkIfIdle; split <;> rfl

@[simp] theorem checkIfIdle_queue (s : EngineState T P R δ) :
    (checkIfIdle s).queue = s.queue := by
  unfold checkIfIdle; split <;> rfl

@[simp] theorem checkIfIdle_activeJobs (s : EngineState T P R δ) :
    (checkIfIdle s).activeJobs = s.activeJobs := by
  unfold checkIfIdle; split <;> rfl

@[simp] theorem checkIfIdle_nextWaiterId (s : EngineState T P R δ) :
    (checkIfIdle s).nextWaiterId = s.nextWaiterId := by
  unfold checkIfIdle; split <;> rfl

@[simp] theorem checkIfIdle_workers (s : EngineState T P R δ) :
    (checkIfIdle s).workers = s.workers := by
  unfold checkIfIdle; split <;> rfl

@[simp] theorem checkIfIdle_isAcceptingWork (s : EngineState T P R δ) :
    (checkIfIdle s).isAcceptingWork = s.isAcceptingWork := by
  unfold checkIfIdle; split <;> rfl

@[simp] theorem checkIfIdle_workAvailable (s : EngineState T P R δ) :
    (checkIfIdle s).workAvailable = s.workAvailable := by
  unfold checkIfIdle; split <;> rfl

@[simp] theorem checkIfIdle_submittedJobs (s : EngineState T P R δ) :
    (checkIfIdle s).submittedJobs = s.submittedJobs := by
  unfold checkIfIdle; split <;> rfl

@[simp] theorem checkIfIdle_emitted (s : EngineState T P R δ) :
    (checkIfIdle s).emitted = s.emitted := by
  unfold checkIfIdle; split <;> rfl

@[simp] theorem checkIfIdle_delivery (s : EngineState T P R δ) :
    (checkIfIdle s).delivery = s.delivery := by
  unfold checkIfIdle; split <;> rfl

/-- How one engine step treats the idle waiters: already-fired waiters stay
fired, pending waiters are never lost (they stay pending or fire), and a
waiter can newly fire only in a step whose resulting state is idle. -/
theorem step_waiter_tracking {D : Delivery T P R δ} {C : Nat}
    {s s' : EngineState T P R δ} (h : Step D C s s') :
    (∀ i ∈ s.firedWaiters, i ∈ s'.firedWaiters) ∧
    (∀ i ∈ s.waitingResolvers, i ∈ s'.waitingResolvers ∨ i ∈ s'.firedWaiters) ∧
    (∀ i ∈ s'.firedWaiters, i ∉ s.firedWaiters →
      s'.activeJobs = 0 ∧ s'.queue = []) := by
  cases h with
  | enqueue j ha =>
    refine ⟨?_, ?_, ?_⟩
    · intro i hi; simpa [enqueueBody] using hi
    · intro i hi; exact Or.inl (by simpa [enqueueBody] using hi)
    · intro i hi hni
      exact absurd (by simpa [enqueueBody] using hi) hni
  | waitForIdleCall =>
    unfold waitForIdle
    split
    next hc =>
      refine ⟨?_, ?_, ?_⟩
      · intro i hi; exact List.mem_append.2 (Or.inl hi)
      · intro i hi; exact Or.inl hi
      · intro i _ _
        exact ⟨hc.1, List.isEmpty_iff.1 hc.2⟩
    next hc =>
      refine ⟨?_, ?_, ?_⟩
      · intro i hi; exact hi
      · intro i hi; exact Or.inl (List.mem_append.2 (Or.inl hi))
      · intro i hi hni; exact absurd hi hni
  | startJob pre post j rest hw hq =>
    exact ⟨fun i hi => hi, fun i hi => Or.inl hi, fun i hi hni => absurd hi hni⟩
  | finishJob pre post j hw =>
    unfold completeJob checkIfIdle
    split
    next hc =>
      refine ⟨?_, ?_, ?_⟩
      · intro i hi; exact List.mem_append.2 (Or.inl hi)
      · intro i hi; exact Or.inr (List.mem_append.2 (Or.inr hi))
      · intro i _ _
        exact ⟨hc.1, List.isEmpty_iff.1 hc.2⟩
    next hc =>
      exact ⟨fun i hi => hi, fun i hi => Or.inl hi, fun i hi hni => absurd hi hni⟩
  | blockWorker pre post hw hq ha =>
    exact ⟨fun i hi => hi, fun i hi => Or.inl hi, fun i hi hni => absurd hi hni⟩
  | exitWorker pre post hw hq ha =>
    exact ⟨fun i hi => hi, fun i hi => Or.inl hi, fun i hi hni => absurd hi hni⟩
  | shutdownBegin =>
    refine ⟨?_, ?_, ?_⟩
    · intro i hi; simpa [finishAllWorkBegin] using hi
    · intro i hi; exact Or.inl (by simpa [finishAllWorkBegin] using hi)
    · intro i hi hni
      exact absurd (by simpa [finishAllWorkBegin] using hi) hni
  | shutdownFinish hterm ha =>
    exact ⟨fun i hi => hi, fun i hi => Or.inl hi, fun i hi hni => absurd hi hni⟩

theorem running_mem_countRunning_pos {ws : List (WorkerState T P R)}
    {j : JobWithId T P R} (h : WorkerState.running j ∈ ws) :
    0 < countRunning ws :=
  List.countP_pos_iff.2 ⟨_, h, by simp⟩

theorem countRunning_zero_no_running {ws : List (WorkerState T P R)}
    (h : countRunning ws = 0) (j : JobWithId T P R) :
    WorkerState.running j ∉ ws := by
  intro hmem
  exact absurd h (Nat.pos_iff_ne_zero.1 (running_mem_countRunning_pos hmem))

theorem runningJobs_eq_nil_of_countRunning_zero {ws : List (WorkerState T P R)}
    (h : countRunning ws = 0) : runningJobs ws = [] := by
  induction ws with
  | nil => rfl
  | cons w l ih =>
    cases w with
    | running j => simp at h
    | looping => simp at h ⊢; exact ih h
    | waitingForWork => simp at h ⊢; exact ih h
    | terminated => simp at h ⊢; exact ih h

theorem exists_decomp_running {ws : List (WorkerState T P R)}
    (h : 0 < countRunning ws) :
    ∃ pre j post, ws = pre ++ WorkerState.running j :: post := by
  induction ws with
  | nil => simp at h
  | cons w l ih =>
    cases w with
    | running j => exact ⟨[], j, l, rfl⟩
    | looping =>
      simp at h
      obtain ⟨pre, j, post, heq⟩ := ih h
      exact ⟨.looping :: pre, j, post, by rw [heq]; rfl⟩
    | waitingForWork =>
      simp at h
      obtain ⟨pre, j, post, heq⟩ := ih h
      exact ⟨.waitingForWork :: pre, j, post, by rw [heq]; rfl⟩
    | terminated =>
      simp at h
      obtain ⟨pre, j, post, heq⟩ := ih h
      exact ⟨.terminated :: pre, j, post, by rw [heq]; rfl⟩

theorem StepSeq.head {D : Delivery T P R δ} {C : Nat}
    {s s₂ s' : EngineState T P R δ} (h : Step D C s s₂)
    (hs : StepSeq D C s₂ s') : StepSeq D C s s' := by
  induction hs with
  | refl => exact .tail (.refl s) h
  | tail _ hstep ih => exact .tail ih hstep

/-- At a drained state (empty queue, no executing worker) the ledger
invariant specialises to: the delivered outcomes are in bijection with the
submitted jobs — one outcome per submission, none missing, none
duplicated. -/
theorem terminal_ledger {D : Delivery T P R δ} {C : Nat} {d : δ}
    {s : EngineState T P R δ} (hr : Reachable D C d s)
    (hq : s.queue = []) (hrun : countRunning s.workers = 0) :
    List.Perm (s.emitted.map Prod.fst) (idsOf s.submittedJobs) ∧
    (s.emitted.map Prod.fst).Nodup := by
  have hInv := reachable_engineInv hr
  have h := hInv.ledger
  rw [hq, runningJobs_eq_nil_of_countRunning_zero hrun] at h
  simp only [idsOf_nil, List.append_nil] at h
  exact ⟨h.symm, h.nodup hInv.submittedNodup⟩

theorem drain_aux {D : Delivery T P R δ} {C : Nat} {d : δ} (hC : 1 ≤ C) :
    ∀ n (s : EngineState T P R δ), Reachable D C d s →
      2 * s.queue.length + countRunning s.workers = n →
      ∃ s', StepSeq D C s s' ∧ s'.queue = [] ∧ countRunning s'.workers = 0 ∧
        s'.submittedJobs = s.submittedJobs ∧
        (∀ p ∈ s.emitted, p ∈ s'.emitted) := by
  intro n
  induction n using Nat.strong_induction_on with
  | _ n ih =>
    intro s hr hM
    by_cases hrun : countRunning s.workers = 0
    · cases hq : s.queue with
      | nil => exact ⟨s, .refl s, hq, hrun, rfl, fun p hp => hp⟩
      | cons j rest =>
        have hInv := reachable_engineInv hr
        have hqne : s.queue ≠ [] := by rw [hq]; simp
        have hnw : (WorkerState.waitingForWork : WorkerState T P R) ∉ s.workers :=
          hInv.noLostWakeup hqne
        have hwne : s.workers ≠ [] := fun h0 => hqne (hInv.emptyWorkersQueue hC h0)
        have hloop : (WorkerState.looping : WorkerState T P R) ∈ s.workers := by
          have hnt : ∃ w ∈ s.workers, w ≠ WorkerState.terminated := by
            by_cases hacc : s.isAcceptingWork = true
            · obtain ⟨w, hw⟩ := List.exists_mem_of_ne_nil s.workers hwne
              exact ⟨w, hw, fun he => hInv.noEarlyTerm hacc (he ▸ hw)⟩
            · have hacc' : s.isAcceptingWork = false := by
                cases h : s.isAcceptingWork
                · rfl
                · exact absurd h hacc
              by_contra hall
              push_neg at hall
              exact hqne (hInv.drained hC hacc' hall)
          obtain ⟨w, hwmem, hwnt⟩ := hnt
          cases w with
          | looping => exact hwmem
          | waitingForWork => exact absurd hwmem hnw
          | running j' =>
            exact absurd hrun
              (Nat.pos_iff_ne_zero.1 (running_mem_countRunning_pos hwmem))
          | terminated => exact absurd rfl hwnt
        obtain ⟨pre, post, hdecomp⟩ := List.append_of_mem hloop
        have hstep := Step.startJob (D := D) (C := C) s pre post j rest hdecomp hq
        have hcrs : countRunning s.workers = countRunning pre + countRunning post := by
          rw [hdecomp]; simp
        have hlen : s.queue.length = rest.length + 1 := by rw [hq]; simp
        have hM₂ : 2 * rest.length +
            countRunning (pre ++ WorkerState.running j :: post) < n := by
          simp only [countRunning_append, countRunning_cons] at hcrs ⊢
          simp at hcrs ⊢
          omega
        obtain ⟨s', hseq, hq', hrun', hsub', hem'⟩ :=
          ih _ hM₂ _ (hr.step hstep) rfl
        exact ⟨s', hseq.head hstep, hq', hrun', hsub', hem'⟩
    · obtain ⟨pre, j, post, hdecomp⟩ :=
        exists_decomp_running (Nat.pos_iff_ne_zero.2 hrun)
      have hstep := Step.finishJob (D := D) (C := C) s pre post j hdecomp
      have hcrs : countRunning s.workers =
          countRunning pre + countRunning post + 1 := by
        rw [hdecomp]; simp; omega
      have hM₂ : 2 * (completeJob D s pre post j).queue.length +
          countRunning (completeJob D s pre post j).workers < n := by
        unfold completeJob
        simp only [checkIfIdle_queue, checkIfIdle_workers]
        simp only [countRunning_append, countRunning_cons] at hcrs ⊢
        simp at hcrs ⊢
        omega
      obtain ⟨s', hseq, hq', hrun', hsub', hem'⟩ :=
        ih _ hM₂ _ (hr.step hstep) rfl
      refine ⟨s', hseq.head hstep, hq', hrun', ?_, ?_⟩
      · rw [hsub']
        unfold completeJob
        simp
      · intro p hp
        refine hem' p ?_
        unfold completeJob
        simp only [checkIfIdle_emitted]
        exact List.mem_append.2 (Or.inl hp)

/-- Scheduler progress: from any reachable state of a pool with positive
concurrency, worker steps alone can drain the engine, after which every
submitted job has been delivered exactly once. -/
theorem drain_complete {D : Delivery T P R δ} {C : Nat} {d : δ}
    {s : EngineState T P R δ} (hr : Reachable D C d s) (hC : 1 ≤ C) :
    ∃ s', StepSeq D C s s' ∧ s'.queue = [] ∧ countRunning s'.workers = 0 ∧
      (∀ p ∈ s.emitted, p ∈ s'.emitted) ∧
      List.Perm (s'.emitted.map Prod.fst) (idsOf s.submittedJobs) ∧
      (s'.emitted.map Prod.fst).Nodup := by
  obtain ⟨s', hseq, hq', hrun', hsub', hem'⟩ := drain_aux hC _ s hr rfl
  have hr' : Reachable D C d s' := hr.stepSeq hseq
  obtain ⟨hperm, hnodup⟩ := terminal_ledger hr' hq' hrun'
  exact ⟨s', hseq, hq', hrun', hem', hsub' ▸ hperm, hnodup⟩

/-! ## The one-shot fixed-batch runner `runJobs`
(`src/runJobs.ts`, second document of `ConcurrentWorkerPool.ts` in this
checkout, lines 189–238). -/

theorem count_range_eq (a n : Nat) :
    List.count a (List.range n) = if a < n then 1 else 0 := by
  by_cases h : a < n
  · rw [if_pos h]
    refine List.count_eq_one_of_mem (List.nodup_range n) ?_
    simpa using h
  · rw [if_neg h]
    refine List.count_eq_zero_of_not_mem ?_
    simpa using h

/-- The control state of one `runJobs` worker (`runJobs.ts` lines 201–227):
at the top of its `while (true)` loop, suspended in
`await jobs[i].execute(...)` after claiming index `i`, or returned after
claiming an index past the end. -/
inductive RunWorker where
  | looping
  | running (i : Nat)
  | finished
  deriving DecidableEq, Repr

/-- The shared state of one `runJobs` call: the fixed input list `jobs`, the
shared cursor `nextIndex`, the index-addressed `results` array (modelled at
its final length, with `none` for not-yet-written slots), the workers
created by `Array(Math.min(concurrency, jobs.length))` (lines 230–232), and
a ghost log of the indices whose result slot has been written. -/
structure RunState (T P R : Type) where
  jobs : List (Job T P R)
  nextIndex : Nat
  results : List (Option (JobResult T P R))
  workers : List RunWorker
  finishedLog : List Nat
  deriving DecidableEq, Repr

/-- Entry of `runJobs` (lines 193–198 and 229–232): the guard
`concurrency == null || concurrency === undefined || concurrency <= 0`
throws `Invalid concurrency` before any worker is created (`null` /
`undefined` arguments are modelled by `none`); otherwise exactly
`Math.min(concurrency, jobs.length)` workers are started, each beginning at
the top of its loop. -/
def runJobsInit (jobs : List (Job T P R)) (concurrency : Option Int) :
    Except String (RunState T P R) :=
  match concurrency with
  | none => .error "Invalid concurrency: null. Must be a positive integer."
  | some c =>
    if c ≤ 0 then
      .error s!"Invalid concurrency: {c}. Must be a positive integer."
    else
      .ok
        { jobs := jobs
          nextIndex := 0
          results := List.replicate jobs.length none
          workers := List.replicate (min c.toNat jobs.length) .looping
          finishedLog := [] }

/-- One atomic step of a `runJobs` worker (`runJobs.ts` lines 201–227):

* `claim` — `const i = nextIndex++` with `i < jobs.length`: claim index `i`
  and suspend in `await jobs[i].execute(...)` (the cursor increment and the
  bound check are one synchronous segment);
* `exhausted` — `const i = nextIndex++` with `i >= jobs.length`: the cursor
  is still incremented, then the worker returns (line 203–204);
* `finish` — the claimed job's promise settles: the `try/catch` stores the
  outcome at `results[i]` and the loop continues (lines 218–226). -/
inductive RunStep : RunState T P R → RunState T P R → Prop where
  | claim (s : RunState T P R) (pre post : List RunWorker)
      (hw : s.workers = pre ++ .looping :: post)
      (hlt : s.nextIndex < s.jobs.length) :
      RunStep s
        { s with
          nextIndex := s.nextIndex + 1
          workers := pre ++ .running s.nextIndex :: post }
  | exhausted (s : RunState T P R) (pre post : List RunWorker)
      (hw : s.workers = pre ++ .looping :: post)
      (hge : s.jobs.length ≤ s.nextIndex) :
      RunStep s
        { s with
          nextIndex := s.nextIndex + 1
          workers := pre ++ .finished :: post }
  | finish (s : RunState T P R) (pre post : List RunWorker) (i : Nat)
      (j : Job T P R)
      (hw : s.workers = pre ++ .running i :: post)
      (hj : s.jobs.get? i = some j) :
      RunStep s
        { s with
          results := s.results.set i (some (settle j))
          workers := pre ++ .looping :: post
          finishedLog := s.finishedLog ++ [i] }

/-- States reachable during one `runJobs` call started at `s0`. -/
inductive RunReachable (s0 : RunState T P R) : RunState T P R → Prop where
  | init : RunReachable s0 s0
  | step {s s' : RunState T P R} :
      RunReachable s0 s → RunStep s s' → RunReachable s0 s'

/-- A `runJobs` worker currently executing a job. -/
def isRunningR : RunWorker → Bool
  | .running _ => true
  | _ => false

/-- The indices currently claimed by executing workers. -/
def runningIdxs : List RunWorker → List Nat :=
  List.filterMap fun w => match w with | .running i => some i | _ => none

/-- Number of `runJobs` workers currently executing a job. -/
def countRunningR (ws : List RunWorker) : Nat := ws.countP isRunningR

@[simp] theorem runningIdxs_nil : runningIdxs [] = [] := rfl

@[simp] theorem runningIdxs_cons_looping (l : List RunWorker) :
    runningIdxs (.looping :: l) = runningIdxs l := rfl

@[simp] theorem runningIdxs_cons_finished (l : List RunWorker) :
    runningIdxs (.finished :: l) = runningIdxs l := rfl

@[simp] theorem runningIdxs_cons_running (i : Nat) (l : List RunWorker) :
    runningIdxs (.running i :: l) = i :: runningIdxs l := rfl

@[simp] theorem runningIdxs_append (l₁ l₂ : List RunWorker) :
    runningIdxs (l₁ ++ l₂) = runningIdxs l₁ ++ runningIdxs l₂ :=
  List.filterMap_append _ _ _

theorem runningIdxs_replicate_looping (m : Nat) :
    runningIdxs (List.replicate m .looping) = [] := by
  induction m with
  | zero => rfl
  | succ n ih => simp [List.replicate, ih]

/-- The inductive invariant of one `runJobs` call: the input list and the
worker count are fixed; the results array keeps the input's length; the
claimed indices (in flight plus already stored) are exactly
`0, …, min nextIndex jobs.length − 1`, each claimed once; every stored slot
`i` holds the settlement of `jobs[i]`; and a worker only returns after the
cursor has passed the end. -/
structure RunInv (s0 : RunState T P R) (s : RunState T P R) : Prop where
  jobsEq : s.jobs = s0.jobs
  workersLen : s.workers.length = s0.workers.length
  resultsLen : s.results.length = s.jobs.length
  claimedPerm : List.Perm (runningIdxs s.workers ++ s.finishedLog)
      (List.range (min s.nextIndex s.jobs.length))
  fillEq : ∀ i ∈ s.finishedLog, ∃ j, s.jobs.get? i = some j ∧
      s.results.get? i = some (some (settle j))
  finishedHigh : RunWorker.finished ∈ s.workers → s.jobs.length ≤ s.nextIndex

theorem runJobsInit_ok {jobs : List (Job T P R)} {c : Int}
    {s0 : RunState T P R} (h : runJobsInit jobs (some c) = .ok s0) :
    1 ≤ c ∧ s0 =
      { jobs := jobs
        nextIndex := 0
        results := List.replicate jobs.length none
        workers := List.replicate (min c.toNat jobs.length) .looping
        finishedLog := [] } := by
  simp only [runJobsInit] at h
  split at h
  next hc => cases h
  next hc => cases h; exact ⟨by omega, rfl⟩

theorem runInv_init {jobs : List (Job T P R)} {c : Option Int}
    {s0 : RunState T P R} (h : runJobsInit jobs c = .ok s0) :
    RunInv s0 s0 := by
  match c with
  | none => cases h
  | some c =>
    obtain ⟨hc, hs0⟩ := runJobsInit_ok h
    subst hs0
    constructor
    case jobsEq => rfl
    case workersLen => rfl
    case resultsLen => simp
    case claimedPerm => simp [runningIdxs_replicate_looping]
    case fillEq => intro i hi; simp at hi
    case finishedHigh =>
      intro hmem
      have heq := List.eq_of_mem_replicate hmem
      cases heq

theorem runInv_step {s0 s s' : RunState T P R} (hInv : RunInv s0 s)
    (h : RunStep s s') : RunInv s0 s' := by
  cases h with
  | claim pre post hw hlt =>
    have hmin1 : min s.nextIndex s.jobs.length = s.nextIndex :=
      Nat.min_eq_left (Nat.le_of_lt hlt)
    have hmin2 : min (s.nextIndex + 1) s.jobs.length = s.nextIndex + 1 :=
      Nat.min_eq_left hlt
    constructor
    case jobsEq => exact hInv.jobsEq
    case workersLen =>
      show (pre ++ RunWorker.running s.nextIndex :: post).length = _
      have hlen : (pre ++ RunWorker.running s.nextIndex :: post).length
          = s.workers.length := by rw [hw]; simp
      rw [hlen]; exact hInv.workersLen
    case resultsLen => exact hInv.resultsLen
    case claimedPerm =>
      refine List.perm_iff_count.2 fun a => ?_
      have hcp := hInv.claimedPerm.count_eq a
      rw [hw, hmin1] at hcp
      show _ = List.count a (List.range (min (s.nextIndex + 1) s.jobs.length))
      rw [hmin2]
      simp only [runningIdxs_append, runningIdxs_cons_looping,
        runningIdxs_cons_running, List.count_append, List.count_cons,
        List.count_nil, count_range_eq, beq_iff_eq] at hcp ⊢
      split_ifs at hcp ⊢ <;> omega
    case fillEq => exact hInv.fillEq
    case finishedHigh =>
      intro hmem
      have hmem' : RunWorker.finished ∈ s.workers := by
        rw [hw]
        simp only [List.mem_append, List.mem_cons] at hmem ⊢
        rcases hmem with h | h | h
        · exact Or.inl h
        · cases h
        · exact Or.inr (Or.inr h)
      have := hInv.finishedHigh hmem'
      show s.jobs.length ≤ s.nextIndex + 1
      omega
  | exhausted pre post hw hge =>
    have hmin1 : min s.nextIndex s.jobs.length = s.jobs.length :=
      Nat.min_eq_right hge
    have hmin2 : min (s.nextIndex + 1) s.jobs.length = s.jobs.length :=
      Nat.min_eq_right (Nat.le_trans hge (Nat.le_succ _))
    constructor
    case jobsEq => exact hInv.jobsEq
    case workersLen =>
      show (pre ++ RunWorker.finished :: post).length = _
      have hlen : (pre ++ RunWorker.finished :: post).length
          = s.workers.length := by rw [hw]; simp
      rw [hlen]; exact hInv.workersLen
    case resultsLen => exact hInv.resultsLen
    case claimedPerm =>
      refine List.perm_iff_count.2 fun a => ?_
      have hcp := hInv.claimedPerm.count_eq a
      rw [hw, hmin1] at hcp
      show _ = List.count a (List.range (min (s.nextIndex + 1) s.jobs.length))
      rw [hmin2]
      simp only [runningIdxs_append, runningIdxs_cons_looping,
        runningIdxs_cons_finished, List.count_append, List.count_cons,
        List.count_nil, count_range_eq, beq_iff_eq] at hcp ⊢
      split_ifs at hcp ⊢ <;> omega
    case fillEq => exact hInv.fillEq
    case finishedHigh =>
      intro _
      show s.jobs.length ≤ s.nextIndex + 1
      omega
  | finish pre post i j hw hj =>
    have hmn : min s.nextIndex s.jobs.length ≤ s.jobs.length :=
      Nat.min_le_right _ _
    have hrange : i < min s.nextIndex s.jobs.length := by
      have hcp := hInv.claimedPerm.count_eq i
      rw [hw] at hcp
      simp only [runningIdxs_append, runningIdxs_cons_running,
        List.count_append, List.count_cons, List.count_nil, count_range_eq, beq_iff_eq] at hcp
      split_ifs at hcp <;> omega
    have hilen : i < s.results.length := by
      rw [hInv.resultsLen]; omega
    have hnotlog : i ∉ s.finishedLog := by
      intro hmem
      have hcp := hInv.claimedPerm.count_eq i
      rw [hw] at hcp
      have hpos : 0 < s.finishedLog.count i := List.count_pos_iff.mpr hmem
      simp only [runningIdxs_append, runningIdxs_cons_running,
        List.count_append, List.count_cons, List.count_nil, count_range_eq, beq_iff_eq] at hcp
      split_ifs at hcp <;> omega
    constructor
    case jobsEq => exact hInv.jobsEq
    case workersLen =>
      show (pre ++ RunWorker.looping :: post).length = _
      have hlen : (pre ++ RunWorker.looping :: post).length
          = s.workers.length := by rw [hw]; simp
      rw [hlen]; exact hInv.workersLen
    case resultsLen =>
      show (s.results.set i _).length = _
      rw [List.length_set]
      exact hInv.resultsLen
    case claimedPerm =>
      refine List.perm_iff_count.2 fun a => ?_
      have hcp := hInv.claimedPerm.count_eq a
      rw [hw] at hcp
      simp only [runningIdxs_append, runningIdxs_cons_looping,
        runningIdxs_cons_running, List.count_append, List.count_cons,
        List.count_nil, count_range_eq, beq_iff_eq] at hcp ⊢
      split_ifs at hcp ⊢ <;> omega
    case fillEq =>
      intro i' hi'
      rcases List.mem_append.1 hi' with hmem | hmem
      · have hne : i' ≠ i := fun he => hnotlog (he ▸ hmem)
        obtain ⟨j', hj', hres⟩ := hInv.fillEq i' hmem
        exact ⟨j', hj',
          by rw [List.get?_set_ne _ _ (fun he => hne he.symm)]; exact hres⟩
      · have hii : i' = i := by simpa using hmem
        subst hii
        exact ⟨j, hj, List.get?_set_eq_of_lt _ hilen⟩
    case finishedHigh =>
      intro hmem
      have hmem' : RunWorker.finished ∈ s.workers := by
        rw [hw]
        simp only [List.mem_append, List.mem_cons] at hmem ⊢
        rcases hmem with h | h | h
        · exact Or.inl h
        · cases h
        · exact Or.inr (Or.inr h)
      exact hInv.finishedHigh hmem'

theorem runReachable_runInv {jobs : List (Job T P R)} {c : Option Int}
    {s0 s : RunState T P R} (hinit : runJobsInit jobs c = .ok s0)
    (hr : RunReachable s0 s) : RunInv s0 s := by
  induction hr with
  | init => exact runInv_init hinit
  | step _ hstep ih => exact runInv_step ih hstep

/-- The shared cursor of `runJobs` is monotonically increasing. -/
theorem runStep_cursor_mono {s s' : RunState T P R} (h : RunStep s s') :
    s.nextIndex ≤ s'.nextIndex := by
  cases h with
  | claim pre post hw hlt => exact Nat.le_succ _
  | exhausted pre post hw hge => exact Nat.le_succ _
  | finish pre post i j hw hj => exact Nat.le_refl _

theorem runningIdxs_eq_nil_of_all_finished {ws : List RunWorker}
    (h : ∀ w ∈ ws, w = RunWorker.finished) : runningIdxs ws = [] := by
  induction ws with
  | nil => rfl
  | cons w l ih =>
    have hw := h w (List.mem_cons_self _ _)
    subst hw
    exact ih fun v hv => h v (List.mem_cons_of_mem _ hv)

/-- Once every `runJobs` worker has returned, the results array holds, at
every input index, the settlement of the job submitted at that index. -/
theorem runJobs_final {jobs : List (Job T P R)} {c : Option Int}
    {s0 s : RunState T P R} (hinit : runJobsInit jobs c = .ok s0)
    (hr : RunReachable s0 s)
    (hfin : ∀ w ∈ s.workers, w = RunWorker.finished) :
    ∀ i, i < jobs.length →
      ∃ j, jobs.get? i = some j ∧
        s.results.get? i = some (some (settle j)) := by
  match c with
  | none => cases hinit
  | some c =>
    obtain ⟨hc, hs0⟩ := runJobsInit_ok hinit
    have hInv := runReachable_runInv hinit hr
    have hjobs : s.jobs = jobs := by rw [hInv.jobsEq, hs0]
    intro i hi
    cases hws : s.workers with
    | nil =>
      exfalso
      have hlen := hInv.workersLen
      rw [hws, hs0] at hlen
      simp at hlen
      omega
    | cons w l =>
      have hfinw : RunWorker.finished ∈ s.workers := by
        rw [hws]
        have := hfin w (by rw [hws]; exact List.mem_cons_self _ _)
        rw [← this]
        exact List.mem_cons_self _ _
      have hhigh : s.jobs.length ≤ s.nextIndex := hInv.finishedHigh hfinw
      have hmin : min s.nextIndex s.jobs.length = s.jobs.length :=
        Nat.min_eq_right hhigh
      have hperm := hInv.claimedPerm
      rw [hmin, runningIdxs_eq_nil_of_all_finished hfin,
        List.nil_append] at hperm
      have hmemlog : i ∈ s.finishedLog := by
        refine hperm.symm.subset ?_
        rw [hjobs]
        simpa using hi
      obtain ⟨j, hj, hres⟩ := hInv.fillEq i hmemlog
      rw [hjobs] at hj
      exact ⟨j, hj, hres⟩

/-- The number of `runJobs` workers simultaneously inside
`await jobs[i].execute(...)` never exceeds the worker count
`min concurrency jobs.length`. -/
theorem runReachable_inflight_le {jobs : List (Job T P R)} {c : Int}
    {s0 s : RunState T P R} (hinit : runJobsInit jobs (some c) = .ok s0)
    (hr : RunReachable s0 s) :
    countRunningR s.workers ≤ min c.toNat jobs.length := by
  obtain ⟨hc, hs0⟩ := runJobsInit_ok hinit
  have hInv := runReachable_runInv hinit hr
  have hlen := hInv.workersLen
  rw [hs0] at hlen
  simp at hlen
  calc countRunningR s.workers ≤ s.workers.length :=
        List.countP_le_length _
    _ = min c.toNat jobs.length := hlen

/-- Every index is claimed at most once: the in-flight indices together with
the already-stored ones are pairwise distinct. -/
theorem runReachable_claimed_nodup {jobs : List (Job T P R)} {c : Option Int}
    {s0 s : RunState T P R} (hinit : runJobsInit jobs c = .ok s0)
    (hr : RunReachable s0 s) :
    (runningIdxs s.workers ++ s.finishedLog).Nodup :=
  ((runReachable_runInv hinit hr).claimedPerm.symm.nodup (List.nodup_range _))

/-! ## The long-running-job watchdog -/

/-- One `logger.warn(...)` call made by the watchdog interval callback
(`ConcurrentWorkerPool.ts` lines 55–61, identically `runJobs.ts` lines
211–217 and `ConcurrentJobQueue.ts`): the fixed message, the `{minutes}`
payload, and the two constituents of the merged third argument
`{...context, ...job.properties}` (the `workerId` from the `JobContext` and
the job's own `properties`). -/
structure WarnCall (P : Type) where
  message : String
  minutes : Nat
  workerId : Nat
  properties : P
  deriving DecidableEq, Repr

/-- The watchdog of one job execution: `setInterval(cb, 60_000)` is started
when the job starts (at `startTime`, so the callback fires at
`startTime + 60000·k` for `k = 1, 2, …`) and `clearInterval` runs in the
`finally` block when the job's promise settles, `duration` time units after
the start.  The interval is registered before `execute` is invoked, so at a
tie (`duration` an exact multiple of 60000) the interval callback fires
before the completion is processed; hence the firings are exactly the `k`
with `60000·k ≤ duration`.  Each firing calls
`logger.warn('Long-running job detected.',
{minutes: Math.floor((Date.now() - startTime) / 60000)},
{...context, ...job.properties})`.  The list pairs each firing time with
the `warn` call it makes, in order. -/
def watchdogWarns (startTime duration : Nat) (workerId : Nat)
    (properties : P) : List (Nat × WarnCall P) :=
  (List.range (duration / 60000)).map fun k =>
    let fireTime := startTime + 60000 * (k + 1)
    (fireTime,
      { message := "Long-running job detected."
        minutes := (fireTime - startTime) / 60000
        workerId := workerId
        properties := properties })

/-! ## Reference semantics for the accumulate variant's results array -/

/-- A heap of outcome arrays: array objects are identified by an index (a
reference) into the store, giving JavaScript's object-reference semantics
for `this.results`. -/
structure OutcomeStore (T P R : Type) where
  arrays : List (List (JobResult T P R))
  deriving DecidableEq, Repr

/-- Dereference an array. -/
def OutcomeStore.read (st : OutcomeStore T P R) (r : Nat) :
    List (JobResult T P R) := (st.arrays.get? r).getD []

/-- `arr.push(x)` through a reference. -/
def OutcomeStore.push (st : OutcomeStore T P R) (r : Nat)
    (x : JobResult T P R) : OutcomeStore T P R :=
  { arrays := st.arrays.set r (st.read r ++ [x]) }

/-- Replace the contents of the array behind a reference (a caller mutating
the array object returned by `getResults`). -/
def OutcomeStore.overwrite (st : OutcomeStore T P R) (r : Nat)
    (v : List (JobResult T P R)) : OutcomeStore T P R :=
  { arrays := st.arrays.set r v }

/-- The delivery state of `ConcurrentJobQueue`: the heap together with the
reference held in the private `results` field
(`private results: JobResult<T, P>[] = []`). -/
def AccDelivery (T P R : Type) : Type := OutcomeStore T P R × Nat

/-- The accumulate delivery strategy (`ConcurrentJobQueue.ts`): `enqueue`
installs nothing per job; a completing worker pushes its outcome onto the
array behind `this.results` (`this.results.push(...)`). -/
def accDelivery (T P R : Type) : Delivery T P R (AccDelivery T P R) where
  onSubmit := fun d _ _ => d
  onComplete := fun d _ out => (d.1.push d.2 out, d.2)

/-- The delivery state at construction: one fresh empty array, referenced
by `this.results`. -/
def accInit (T P R : Type) : AccDelivery T P R := (⟨[[]]⟩, 0)

/-- `getResults` (`ConcurrentJobQueue.ts`): `return this.results` — the
reference held in the field itself, not a copy of the array. -/
def getResults (s : EngineState T P R (AccDelivery T P R)) : Nat :=
  s.delivery.2

/-- The outcome list the engine has recorded: the contents of the array
behind `this.results`. -/
def recordedResults (s : EngineState T P R (AccDelivery T P R)) :
    List (JobResult T P R) := s.delivery.1.read s.delivery.2

theorem OutcomeStore.read_push {st : OutcomeStore T P R} {r : Nat}
    (h : r < st.arrays.length) (x : JobResult T P R) :
    (st.push r x).read r = st.read r ++ [x] := by
  unfold OutcomeStore.push OutcomeStore.read
  rw [List.get?_set_eq_of_lt _ h]
  rfl

theorem OutcomeStore.read_overwrite {st : OutcomeStore T P R} {r : Nat}
    (h : r < st.arrays.length) (v : List (JobResult T P R)) :
    (st.overwrite r v).read r = v := by
  unfold OutcomeStore.overwrite OutcomeStore.read
  rw [List.get?_set_eq_of_lt _ h]
  rfl

/-- In every reachable state of a `ConcurrentJobQueue`, the `results` field
still refers to the array allocated at construction (it is never
reassigned), and the heap holds exactly that one array. -/
theorem acc_ref_stable {C : Nat} {s : EngineState T P R (AccDelivery T P R)}
    (hr : Reachable (accDelivery T P R) C (accInit T P R) s) :
    s.delivery.2 = 0 ∧ s.delivery.1.arrays.length = 1 := by
  induction hr with
  | init => exact ⟨rfl, rfl⟩
  | step h hstep ih =>
    rename_i s₁ s₂
    cases hstep with
    | enqueue j ha =>
      have hd : (enqueueBody (accDelivery T P R) C s₁ j).delivery
          = s₁.delivery := by
        simp [enqueueBody, accDelivery]
      rw [hd]
      exact ih
    | waitForIdleCall =>
      unfold waitForIdle
      split <;> exact ih
    | startJob pre post j rest hw hq => exact ih
    | finishJob pre post j hw =>
      unfold completeJob
      rw [checkIfIdle_delivery]
      refine ⟨ih.1, ?_⟩
      show ((_ : AccDelivery T P R).1).arrays.length = 1
      simp only [accDelivery, OutcomeStore.push]
      rw [List.length_set]
      exact ih.2
    | blockWorker pre post hw hq ha => exact ih
    | exitWorker pre post hw hq ha => exact ih
    | shutdownBegin =>
      unfold finishAllWorkBegin notifyWorkersOfNewWork
      split <;> exact ih
    | shutdownFinish hterm ha => exact ih

/-! ## Supporting lemmas for the claim theorems -/

theorem enqueue_ok {D : Delivery T P R δ} {C : Nat} {s : EngineState T P R δ}
    (ha : s.isAcceptingWork = true) (j : Job T P R) :
    enqueue D C s j = .ok (enqueueBody D C s j, s.jobCounter) := by
  unfold enqueue
  rw [ha]
  simp

theorem enqueue_error {D : Delivery T P R δ} {C : Nat}
    {s : EngineState T P R δ} (ha : s.isAcceptingWork = false)
    (j : Job T P R) :
    enqueue D C s j = .error "Cannot enqueue jobs after shutdown" := by
  unfold enqueue
  rw [ha]
  simp

theorem set_isAcceptingWork_self {s : EngineState T P R δ}
    (h : s.isAcceptingWork = false) :
    { s with isAcceptingWork := false } = s := by
  cases s
  simp only at h
  subst h
  rfl

theorem notify_noop {s : EngineState T P R δ} (h : s.workAvailable = false) :
    notifyWorkersOfNewWork s = s := by
  unfold notifyWorkersOfNewWork
  rw [h]
  simp

theorem notify_idem (s : EngineState T P R δ) :
    notifyWorkersOfNewWork (notifyWorkersOfNewWork s) =
      notifyWorkersOfNewWork s := by
  by_cases h : s.workAvailable = true
  · refine notify_noop ?_
    unfold notifyWorkersOfNewWork
    rw [h]
    simp
  · have h' : s.workAvailable = false := by
      cases hw : s.workAvailable
      · rfl
      · exact absurd hw h
    rw [notify_noop h', notify_noop h']

theorem countRunning_eq_zero_of_runningJobs_nil {ws : List (WorkerState T P R)}
    (h : runningJobs ws = []) : countRunning ws = 0 := by
  induction ws with
  | nil => rfl
  | cons w l ih =>
    cases w with
    | running j => simp at h
    | looping => simp at h ⊢; exact ih h
    | waitingForWork => simp at h ⊢; exact ih h
    | terminated => simp at h ⊢; exact ih h

/-! ## The claims -/

/-- C1: For every list of submitted jobs and every concurrency limit
`C ≥ 1`, at most `C` jobs are simultaneously executing at any point: the
pool variants create exactly `C` worker loops on first use (each running at
most one job at a time — a worker is `running` at most one job by
construction of `WorkerState`), and the one-shot runner creates
`min(C, number of jobs)` workers, so the number of in-flight `execute`
invocations never exceeds `C`. -/
theorem claim_C1 :
    (∀ (T P R δ : Type) (D : Delivery T P R δ) (C : Nat) (d : δ)
        (s : EngineState T P R δ), 1 ≤ C → Reachable D C d s →
        activeJobCount s ≤ C ∧ s.workers.length ≤ C) ∧
    (∀ (T P R δ : Type) (D : Delivery T P R δ) (C : Nat) (d : δ)
        (s : EngineState T P R δ) (j : Job T P R), 1 ≤ C → Reachable D C d s →
        s.workers = [] → s.isAcceptingWork = true →
        (enqueueBody D C s j).workers.length = C) ∧
    (∀ (T P R : Type) (jobs : List (Job T P R)) (c : Int)
        (s0 s : RunState T P R), runJobsInit jobs (some c) = .ok s0 →
        RunReachable s0 s →
        s0.workers.length = min c.toNat jobs.length ∧
        countRunningR s.workers ≤ c.toNat) := by
  refine ⟨?_, ?_, ?_⟩
  · intro T P R δ D C d s hC hr
    have hInv := reachable_engineInv hr
    have hlen : s.workers.length ≤ C := by
      rcases hInv.workersLen with h | h <;> omega
    refine ⟨?_, hlen⟩
    show s.activeJobs ≤ C
    rw [hInv.activeEq]
    calc countRunning s.workers ≤ s.workers.length := List.countP_le_length _
      _ ≤ C := hlen
  · intro T P R δ D C d s j hC hr h0 ha
    have hInv := reachable_engineInv hr
    obtain ⟨ws, heq, -, -, -, -, hlen, -, hnil⟩ :=
      enqueueBody_spec D C s j ha (fun hfa hmem =>
        by simp [hInv.armedIff.2 hmem] at hfa)
    rw [heq]
    show ws.length = C
    rcases hlen with h | ⟨-, h⟩
    · rw [h0] at h
      simp at h
      have := hnil h
      omega
    · exact h
  · intro T P R jobs c s0 s hinit hr
    obtain ⟨hc, hs0⟩ := runJobsInit_ok hinit
    constructor
    · rw [hs0]
      simp
    · calc countRunningR s.workers ≤ min c.toNat jobs.length :=
            runReachable_inflight_le hinit hr
        _ ≤ c.toNat := Nat.min_le_left _ _

def wJobA : Job Nat Nat Nat := { properties := 10, result := .ok 1 }

def wJobB : Job Nat Nat Nat := { properties := 20, result := .error 9 }

def wRunJobsList : List (Job Nat Nat Nat) := [wJobA, wJobB, wJobA]

def wRunS0 : RunState Nat Nat Nat :=
  { jobs := wRunJobsList
    nextIndex := 0
    results := [none, none, none]
    workers := [.looping, .looping]
    finishedLog := [] }

theorem claim_C1_witness :
    activeJobCount (initState ([] : List Nat) :
      EngineState Nat Nat Nat (List Nat)) ≤ 2 ∧
    (enqueueBody (promiseDelivery Nat Nat Nat) 2
      (initState ([] : List Nat)) wJobA).workers.length = 2 ∧
    wRunS0.workers.length = min (Int.toNat 2) wRunJobsList.length ∧
    countRunningR wRunS0.workers ≤ Int.toNat 2 := by
  refine ⟨?_, ?_, ?_, ?_⟩
  · exact (claim_C1.1 Nat Nat Nat (List Nat) (promiseDelivery Nat Nat Nat) 2
      [] _ (by omega) Reachable.init).1
  · exact claim_C1.2.1 Nat Nat Nat (List Nat) (promiseDelivery Nat Nat Nat) 2
      [] _ wJobA (by omega) Reachable.init rfl rfl
  · exact (claim_C1.2.2 Nat Nat Nat wRunJobsList 2 wRunS0 wRunS0 (by rfl)
      RunReachable.init).1
  · exact (claim_C1.2.2 Nat Nat Nat wRunJobsList 2 wRunS0 wRunS0 (by rfl)
      RunReachable.init).2

def wJW0 : JobWithId Nat Nat Nat := { toJob := wJobA, concurrentJobId := 0 }

def wp0 : EngineState Nat Nat Nat (List Nat) := initState []

def wp1 : EngineState Nat Nat Nat (List Nat) :=
  enqueueBody (promiseDelivery Nat Nat Nat) 1 wp0 wJobA

def wp2 : EngineState Nat Nat Nat (List Nat) :=
  { wp1 with
    queue := []
    activeJobs := wp1.activeJobs + 1
    workers := [] ++ .running wJW0 :: [] }

def wp3 : EngineState Nat Nat Nat (List Nat) :=
  completeJob (promiseDelivery Nat Nat Nat) wp2 [] [] wJW0

theorem wp_reach3 : Reachable (promiseDelivery Nat Nat Nat) 1 [] wp3 :=
  ((Reachable.init.step (Step.enqueue wp0 wJobA rfl)).step
    (Step.startJob wp1 [] [] wJW0 [] rfl rfl)).step
    (Step.finishJob wp2 [] [] wJW0 rfl)

/-- C2: For every list of submitted jobs, once all have run (empty queue and
no executing worker), exactly one Outcome is produced per submitted job —
never zero, never duplicated — and each Outcome's `properties` field equals
the originating job's `properties`, for both the `fulfilled` and the
`rejected` tag (conjunct 2: `settle` preserves `properties` whatever the
settlement).  The same holds of the one-shot runner, whose results array
additionally is index-addressed. -/
theorem claim_C2 :
    (∀ (T P R δ : Type) (D : Delivery T P R δ) (C : Nat) (d : δ)
        (s : EngineState T P R δ), Reachable D C d s →
        s.queue = [] → runningJobs s.workers = [] →
        List.Perm (s.emitted.map Prod.fst) (idsOf s.submittedJobs) ∧
        (s.emitted.map Prod.fst).Nodup ∧
        (∀ p ∈ s.emitted, ∃ j ∈ s.submittedJobs,
          j.concurrentJobId = p.1 ∧ p.2.properties = j.properties)) ∧
    (∀ (T P R : Type) (j : Job T P R),
        (settle j).properties = j.properties) ∧
    (∀ (T P R : Type) (jobs : List (Job T P R)) (c : Option Int)
        (s0 s : RunState T P R),
        runJobsInit jobs c = .ok s0 → RunReachable s0 s →
        (∀ w ∈ s.workers, w = RunWorker.finished) →
        ∀ i, i < jobs.length → ∃ j, jobs.get? i = some j ∧
          s.results.get? i = some (some (settle j)) ∧
          (settle j).properties = j.properties) := by
  refine ⟨?_, ?_, ?_⟩
  · intro T P R δ D C d s hr hq hrun
    obtain ⟨hperm, hnodup⟩ := terminal_ledger hr hq
      (countRunning_eq_zero_of_runningJobs_nil hrun)
    exact ⟨hperm, hnodup, (reachable_engineInv hr).emittedProps⟩
  · intro T P R j
    exact settle_properties j
  · intro T P R jobs c s0 s hinit hr hfin i hi
    obtain ⟨j, hj, hres⟩ := runJobs_final hinit hr hfin i hi
    exact ⟨j, hj, hres, settle_properties j⟩

def wr0 : RunState Nat Nat Nat :=
  { jobs := [wJobA]
    nextIndex := 0
    results := [none]
    workers := [.looping]
    finishedLog := [] }

def wr1 : RunState Nat Nat Nat :=
  { wr0 with
    nextIndex := wr0.nextIndex + 1
    workers := [] ++ .running wr0.nextIndex :: [] }

def wr2 : RunState Nat Nat Nat :=
  { wr1 with
    results := wr1.results.set 0 (some (settle wJobA))
    workers := [] ++ .looping :: []
    finishedLog := wr1.finishedLog ++ [0] }

def wr3 : RunState Nat Nat Nat :=
  { wr2 with
    nextIndex := wr2.nextIndex + 1
    workers := [] ++ .finished :: [] }

theorem wr_reach3 : RunReachable wr0 wr3 :=
  ((RunReachable.init.step (RunStep.claim wr0 [] [] rfl (by decide))).step
    (RunStep.finish wr1 [] [] 0 wJobA rfl rfl)).step
    (RunStep.exhausted wr2 [] [] rfl (by decide))

theorem claim_C2_witness :
    wp3.queue = [] ∧ runningJobs wp3.workers = [] ∧
    List.Perm (wp3.emitted.map Prod.fst) (idsOf wp3.submittedJobs) ∧
    (wp3.emitted.map Prod.fst).Nodup ∧
    wr3.results.get? 0 = some (some (settle wJobA)) := by
  refine ⟨rfl, rfl, ?_, ?_, ?_⟩
  · exact (claim_C2.1 Nat Nat Nat (List Nat) (promiseDelivery Nat Nat Nat) 1
      [] wp3 wp_reach3 rfl rfl).1
  · exact (claim_C2.1 Nat Nat Nat (List Nat) (promiseDelivery Nat Nat Nat) 1
      [] wp3 wp_reach3 rfl rfl).2.1
  · obtain ⟨j, hj, hres, -⟩ := claim_C2.2.2 Nat Nat Nat [wJobA] (some 1)
      wr0 wr3 rfl wr_reach3 (by decide) 0 (by decide)
    have hjj : j = wJobA := by
      have : some j = some wJobA := by
        rw [← hj]
        rfl
      exact Option.some.inj this
    rw [← hjj]
    exact hres

def c3s1 : EngineState Nat Nat Nat (List Nat) :=
  enqueueBody (promiseDelivery Nat Nat Nat) 0 (initState []) wJobA

def c3s2 : EngineState Nat Nat Nat (List Nat) := finishAllWorkBegin c3s1

def c3s3 : EngineState Nat Nat Nat (List Nat) :=
  { c3s2 with workers := ([] : List (WorkerState Nat Nat Nat)) }

/-- C3 counterexample: a `ConcurrentWorkerPool` constructed with
concurrency `0` is a pool-variant engine (`ensureWorkers` simply creates no
worker loops), yet after one `enqueue` and a completed `finishAllWork`
(`acceptingWork` is false, every — i.e. none — worker has terminated, and
`await Promise.all([])` resolves immediately) the queue still holds the
enqueued job: `queueLength = 1 ≠ 0`.  So the claim, which asserts the
postcondition for *every* pool-variant engine and prior submission
sequence, fails at this input. -/
theorem claim_C3_counterexample :
    Reachable (promiseDelivery Nat Nat Nat) 0 [] c3s3 ∧
    c3s2.isAcceptingWork = false ∧
    c3s2.workers = ([] : List (WorkerState Nat Nat Nat)) ∧
    queueLength c3s3 = 1 ∧ activeJobCount c3s3 = 0 := by
  refine ⟨?_, rfl, rfl, rfl, rfl⟩
  exact ((Reachable.init.step
    (Step.enqueue (initState []) wJobA rfl)).step
    (Step.shutdownBegin c3s1)).step
    (Step.shutdownFinish c3s2 (by decide) rfl)

/-- C3 (amended): For every pool-variant engine **with concurrency ≥ 1**
and every prior sequence of submissions, when `finishAllWork` resolves
(work is no longer accepted, every worker loop has returned, and
`this.workers` is reset) the queue length is 0 and the active job count is
0; the shutdown is idempotent — a second `finishAllWork` call changes
nothing and resolves with the same postcondition — and every subsequent
`enqueue` call fails synchronously with the shutdown error, enqueueing
nothing.  (The original claim, without the concurrency restriction, fails
for a pool constructed with concurrency 0 — see the counterexample — a
boundary case the engine leaves degenerate: no workers are ever created, so
queued jobs are never drained.) -/
theorem claim_C3_amended :
    ∀ (T P R δ : Type) (D : Delivery T P R δ) (C : Nat) (d : δ)
      (s s' : EngineState T P R δ) (j : Job T P R), 1 ≤ C →
      Reachable D C d s →
      (∀ w ∈ s.workers, w = WorkerState.terminated) →
      s.isAcceptingWork = false →
      s' = { s with workers := ([] : List (WorkerState T P R)) } →
      (queueLength s' = 0 ∧ activeJobCount s' = 0) ∧
      (finishAllWorkBegin s' = s' ∧
        { s' with workers := ([] : List (WorkerState T P R)) } = s') ∧
      enqueue D C s' j = .error "Cannot enqueue jobs after shutdown" := by
  intro T P R δ D C d s s' j hC hr hterm ha hs'
  have hInv := reachable_engineInv hr
  have hq : s.queue = [] := hInv.drained hC ha hterm
  have hactive : s.activeJobs = 0 := by
    rw [hInv.activeEq]
    exact countRunning_eq_zero_of_all_terminated hterm
  have harm : s.workAvailable = false := by
    cases hw : s.workAvailable
    · rfl
    · have := hterm _ (hInv.armedIff.1 hw)
      cases this
  subst hs'
  obtain ⟨jc, q, aj, nw, wr, fw, ws, acc, wa, sj, em, dv⟩ := s
  simp only at hq hactive harm ha
  subst hq
  subst hactive
  subst harm
  subst ha
  exact ⟨⟨rfl, rfl⟩, ⟨rfl, rfl⟩, enqueue_error rfl j⟩

def wp5 : EngineState Nat Nat Nat (List Nat) := finishAllWorkBegin wp3

def wp6 : EngineState Nat Nat Nat (List Nat) :=
  { wp5 with workers := [] ++ .terminated :: [] }

theorem claim_C3_witness :
    queueLength { wp6 with
      workers := ([] : List (WorkerState Nat Nat Nat)) } = 0 ∧
    activeJobCount { wp6 with
      workers := ([] : List (WorkerState Nat Nat Nat)) } = 0 ∧
    enqueue (promiseDelivery Nat Nat Nat) 1
      { wp6 with workers := ([] : List (WorkerState Nat Nat Nat)) } wJobB
      = .error "Cannot enqueue jobs after shutdown" := by
  have hr : Reachable (promiseDelivery Nat Nat Nat) 1 [] wp6 :=
    (wp_reach3.step (Step.shutdownBegin wp3)).step
      (Step.exitWorker wp5 [] [] rfl rfl rfl)
  have h := claim_C3_amended Nat Nat Nat (List Nat)
    (promiseDelivery Nat Nat Nat) 1 [] wp6 _ wJobB (by omega) hr
    (by decide) rfl rfl
  exact ⟨h.1.1, h.1.2, h.2.2⟩

/-- C4: For every job whose `execute` throws or rejects with any value `r`,
the failure is converted into a `rejected` Outcome carrying `r` as reason
and delivered through the normal Outcome channel (the per-job resolution is
invoked with it; the completion segment is an ordinary engine step, so
nothing is rethrown out of the engine), the worker loop continues to the
next iteration (the worker is back at its loop top, not terminated), and no
other queued or later-submitted job is prevented from running and
completing: from the post-state, worker steps alone drain the engine and
every submitted job has a delivered Outcome. -/
theorem claim_C4 :
    ∀ (T P R δ : Type) (D : Delivery T P R δ) (C : Nat) (d : δ)
      (s : EngineState T P R δ) (pre post : List (WorkerState T P R))
      (j : JobWithId T P R) (r : R),
      Reachable D C d s →
      s.workers = pre ++ .running j :: post →
      j.result = .error r →
      settle j.toJob = .rejected r j.properties ∧
      Step D C s (completeJob D s pre post j) ∧
      (completeJob D s pre post j).emitted
        = s.emitted ++ [(j.concurrentJobId,
            JobResult.rejected r j.properties)] ∧
      (completeJob D s pre post j).delivery
        = D.onComplete s.delivery j.concurrentJobId
            (.rejected r j.properties) ∧
      (completeJob D s pre post j).workers = pre ++ .looping :: post ∧
      ∃ s', StepSeq D C (completeJob D s pre post j) s' ∧ s'.queue = [] ∧
        countRunning s'.workers = 0 ∧
        ∀ jw ∈ s.submittedJobs, ∃ out,
          (jw.concurrentJobId, out) ∈ s'.emitted := by
  intro T P R δ D C d s pre post j r hr hw hres
  have hInv := reachable_engineInv hr
  have hsettle : settle j.toJob = .rejected r j.properties := by
    unfold settle
    rw [hres]
  have hstep : Step D C s (completeJob D s pre post j) :=
    Step.finishJob s pre post j hw
  have hC : 1 ≤ C := by
    have hwl := hInv.workersLen
    rw [hw] at hwl
    rcases hwl with h | h
    · simp at h
    · simp at h
      omega
  refine ⟨hsettle, hstep, ?_, ?_, ?_, ?_⟩
  · show (checkIfIdle _).emitted = _
    rw [checkIfIdle_emitted]
    show s.emitted ++ [(j.concurrentJobId, settle j.toJob)] = _
    rw [hsettle]
  · show (checkIfIdle _).delivery = _
    rw [checkIfIdle_delivery]
    show D.onComplete s.delivery j.concurrentJobId (settle j.toJob) = _
    rw [hsettle]
  · show (checkIfIdle _).workers = _
    rw [checkIfIdle_workers]
  · have hr₂ : Reachable D C d (completeJob D s pre post j) := hr.step hstep
    obtain ⟨s', hseq, hq', hcr', hem', hperm, hnodup⟩ :=
      drain_complete hr₂ hC
    have hsub : (completeJob D s pre post j).submittedJobs
        = s.submittedJobs := by
      show (checkIfIdle _).submittedJobs = _
      rw [checkIfIdle_submittedJobs]
    refine ⟨s', hseq, hq', hcr', ?_⟩
    intro jw hjw
    have hid : jw.concurrentJobId
        ∈ idsOf (completeJob D s pre post j).submittedJobs := by
      rw [hsub]
      exact List.mem_map.2 ⟨jw, hjw, rfl⟩
    have hmem := hperm.symm.subset hid
    obtain ⟨p, hpmem, hpfst⟩ := List.mem_map.1 hmem
    refine ⟨p.2, ?_⟩
    rw [← hpfst]
    exact hpmem

def wJW0B : JobWithId Nat Nat Nat := { toJob := wJobB, concurrentJobId := 0 }

def w4s1 : EngineState Nat Nat Nat (List Nat) :=
  enqueueBody (promiseDelivery Nat Nat Nat) 1 wp0 wJobB

def w4s2 : EngineState Nat Nat Nat (List Nat) :=
  { w4s1 with
    queue := []
    activeJobs := w4s1.activeJobs + 1
    workers := [] ++ .running wJW0B :: [] }

theorem claim_C4_witness :
    settle wJW0B.toJob = JobResult.rejected 9 20 ∧
    (completeJob (promiseDelivery Nat Nat Nat) w4s2 [] [] wJW0B).emitted
      = w4s2.emitted ++ [(0, JobResult.rejected 9 20)] ∧
    (completeJob (promiseDelivery Nat Nat Nat) w4s2 [] [] wJW0B).workers
      = [] ++ .looping :: [] := by
  have hr : Reachable (promiseDelivery Nat Nat Nat) 1 [] w4s2 :=
    (Reachable.init.step (Step.enqueue wp0 wJobB rfl)).step
      (Step.startJob w4s1 [] [] wJW0B [] rfl rfl)
  have h := claim_C4 Nat Nat Nat (List Nat) (promiseDelivery Nat Nat Nat) 1
    [] w4s2 [] [] wJW0B 9 hr rfl rfl
  exact ⟨h.1, h.2.2.1, h.2.2.2.2.1⟩

/-- C5: For every finite job list and every valid concurrency `c`, the
one-shot runner starts exactly `min(c, jobs.length)` workers; each worker
repeatedly claims the next unclaimed index through the shared monotonically
increasing cursor `nextIndex`; every index is claimed exactly once (the
claimed indices — in flight or stored — are exactly `0…min(nextIndex,n)−1`,
pairwise distinct); and once all workers finish, the resolved array holds
one Outcome per input job at that job's original index. -/
theorem claim_C5 :
    ∀ (T P R : Type) (jobs : List (Job T P R)) (c : Int)
      (s0 : RunState T P R),
      runJobsInit jobs (some c) = .ok s0 →
      s0.workers.length = min c.toNat jobs.length ∧
      (∀ s s' : RunState T P R, RunReachable s0 s → RunStep s s' →
        s.nextIndex ≤ s'.nextIndex) ∧
      (∀ s : RunState T P R, RunReachable s0 s →
        (runningIdxs s.workers ++ s.finishedLog).Nodup ∧
        List.Perm (runningIdxs s.workers ++ s.finishedLog)
          (List.range (min s.nextIndex s.jobs.length))) ∧
      (∀ s : RunState T P R, RunReachable s0 s →
        (∀ w ∈ s.workers, w = RunWorker.finished) →
        ∀ i, i < jobs.length → ∃ j, jobs.get? i = some j ∧
          s.results.get? i = some (some (settle j))) := by
  intro T P R jobs c s0 hinit
  obtain ⟨hc, hs0⟩ := runJobsInit_ok hinit
  refine ⟨?_, ?_, ?_, ?_⟩
  · rw [hs0]
    simp
  · intro s s' _ hstep
    exact runStep_cursor_mono hstep
  · intro s hrs
    exact ⟨runReachable_claimed_nodup hinit hrs,
      (runReachable_runInv hinit hrs).claimedPerm⟩
  · intro s hrs hfin
    exact runJobs_final hinit hrs hfin

theorem claim_C5_witness :
    wr0.workers.length = min (Int.toNat 1) ([wJobA] : List (Job Nat Nat Nat)).length ∧
    wr0.nextIndex ≤ wr1.nextIndex ∧
    (runningIdxs wr3.workers ++ wr3.finishedLog).Nodup ∧
    wr3.results.get? 0 = some (some (settle wJobA)) := by
  have h := claim_C5 Nat Nat Nat [wJobA] 1 wr0 rfl
  refine ⟨h.1, ?_, (h.2.2.1 wr3 wr_reach3).1, ?_⟩
  · exact h.2.1 wr0 wr1 RunReachable.init
      (RunStep.claim wr0 [] [] rfl (by decide))
  · obtain ⟨j, hj, hres⟩ := h.2.2.2 wr3 wr_reach3 (by decide) 0 (by decide)
    have hjj : j = wJobA := by
      have heq : some j = some wJobA := by
        rw [← hj]
        rfl
      exact Option.some.inj heq
    rw [← hjj]
    exact hres

/-- C6: For a `null`/`undefined` or non-positive concurrency argument, the
one-shot runner `runJobs` fails immediately with the descriptive
`Invalid concurrency` error before any worker is created — no initial state
exists, so no job's `execute` is ever invoked — and for every concurrency
`≥ 1` no such error is raised (the guard passes and the run starts). -/
theorem claim_C6 :
    ∀ (T P R : Type) (jobs : List (Job T P R)),
      (runJobsInit jobs none =
        .error "Invalid concurrency: null. Must be a positive integer.") ∧
      (∀ c : Int, c ≤ 0 → runJobsInit jobs (some c) =
        .error s!"Invalid concurrency: {c}. Must be a positive integer.") ∧
      (∀ c : Int, c ≤ 0 → ∀ s0 : RunState T P R,
        runJobsInit jobs (some c) ≠ .ok s0) ∧
      (∀ c : Int, 1 ≤ c → ∃ s0 : RunState T P R,
        runJobsInit jobs (some c) = .ok s0) := by
  intro T P R jobs
  refine ⟨rfl, ?_, ?_, ?_⟩
  · intro c hc
    simp only [runJobsInit]
    rw [if_pos hc]
  · intro c hc s0 h
    simp only [runJobsInit] at h
    rw [if_pos hc] at h
    cases h
  · intro c hc
    refine ⟨{ jobs := jobs
              nextIndex := 0
              results := List.replicate jobs.length none
              workers := List.replicate (min c.toNat jobs.length) .looping
              finishedLog := [] }, ?_⟩
    simp only [runJobsInit]
    rw [if_neg (by omega)]

theorem claim_C6_witness :
    runJobsInit wRunJobsList none =
      .error "Invalid concurrency: null. Must be a positive integer." ∧
    runJobsInit wRunJobsList (some 0) =
      .error "Invalid concurrency: 0. Must be a positive integer." ∧
    runJobsInit wRunJobsList (some (-3)) =
      .error "Invalid concurrency: -3. Must be a positive integer." := by
  refine ⟨(claim_C6 Nat Nat Nat wRunJobsList).1, ?_, ?_⟩
  · rw [(claim_C6 Nat Nat Nat wRunJobsList).2.1 0 (by omega)]
    rfl
  · rw [(claim_C6 Nat Nat Nat wRunJobsList).2.1 (-3) (by omega)]
    rfl

/-- C7: For every pool-variant engine: a `waitForIdle` call made while
`activeJobs = 0` and the queue is empty resolves immediately (and registers
no waiter); a call made while busy registers a waiter and resolves exactly
once, at the next transition into idle — it survives every step that does
not end idle, and fires (never to fire again: the fired log stays
duplicate-free) at the step that does; and the idle condition is
level-triggered: after every state transition, an idle state has no pending
waiter left. -/
theorem claim_C7 :
    ∀ (T P R δ : Type) (D : Delivery T P R δ) (C : Nat) (d : δ)
      (s s' : EngineState T P R δ),
      Reachable D C d s →
      (s.activeJobs = 0 → s.queue = [] → (waitForIdle s).2 = true ∧
        (waitForIdle s).1.waitingResolvers = s.waitingResolvers) ∧
      (¬(s.activeJobs = 0 ∧ s.queue = []) → (waitForIdle s).2 = false ∧
        (waitForIdle s).1.waitingResolvers
          = s.waitingResolvers ++ [s.nextWaiterId]) ∧
      (Step D C s s' → s'.activeJobs = 0 → s'.queue = [] →
        s'.waitingResolvers = []) ∧
      (Step D C s s' → ∀ i ∈ s.waitingResolvers,
        (s'.activeJobs = 0 ∧ s'.queue = [] → i ∈ s'.firedWaiters) ∧
        (¬(s'.activeJobs = 0 ∧ s'.queue = []) → i ∈ s'.waitingResolvers ∧
          i ∉ s'.firedWaiters)) ∧
      s.firedWaiters.Nodup := by
  intro T P R δ D C d s s' hr
  have hInv := reachable_engineInv hr
  refine ⟨?_, ?_, ?_, ?_, ?_⟩
  · intro h0 hq
    unfold waitForIdle
    rw [if_pos ⟨h0, by rw [hq]; rfl⟩]
    exact ⟨rfl, rfl⟩
  · intro hbusy
    unfold waitForIdle
    rw [if_neg fun hc => hbusy ⟨hc.1, List.isEmpty_iff.1 hc.2⟩]
    exact ⟨rfl, rfl⟩
  · intro hstep h0 hq
    exact (engineInv_step hInv hstep).idleFlushed h0 hq
  · intro hstep i hi
    have hInv' := engineInv_step hInv hstep
    obtain ⟨hmono, htrack, hfresh⟩ := step_waiter_tracking hstep
    have hnotfired : i ∉ s.firedWaiters := by
      have hnd := hInv.waiterNodup
      rw [List.nodup_append] at hnd
      exact fun hf => hnd.2.2 hf hi
    constructor
    · rintro ⟨h0, hq⟩
      rcases htrack i hi with h | h
      · rw [hInv'.idleFlushed h0 hq] at h
        cases h
      · exact h
    · intro hnidle
      rcases htrack i hi with h | h
      · refine ⟨h, ?_⟩
        have hnd := hInv'.waiterNodup
        rw [List.nodup_append] at hnd
        exact fun hf => hnd.2.2 hf h
      · exact absurd (hfresh i h hnotfired) hnidle
  · have hnd := hInv.waiterNodup
    rw [List.nodup_append] at hnd
    exact hnd.1

theorem claim_C7_witness :
    (waitForIdle wp3).2 = true ∧
    (waitForIdle wp3).1.waitingResolvers = wp3.waitingResolvers ∧
    (waitForIdle wp2).2 = false ∧
    (waitForIdle wp2).1.waitingResolvers
      = wp2.waitingResolvers ++ [wp2.nextWaiterId] ∧
    wp3.firedWaiters.Nodup := by
  have h3 := claim_C7 Nat Nat Nat (List Nat) (promiseDelivery Nat Nat Nat) 1
    [] wp3 wp3 wp_reach3
  have h2 := claim_C7 Nat Nat Nat (List Nat) (promiseDelivery Nat Nat Nat) 1
    [] wp2 wp2
    ((Reachable.init.step (Step.enqueue wp0 wJobA rfl)).step
      (Step.startJob wp1 [] [] wJW0 [] rfl rfl))
  refine ⟨(h3.1 rfl rfl).1, (h3.1 rfl rfl).2, ?_, ?_, h3.2.2.2.2⟩
  · exact (h2.2.1 (by decide)).1
  · exact (h2.2.1 (by decide)).2

/-- C8 (amended): For the Work-Availability Signal of the pool variants:
`notifyWorkersOfNewWork` resumes every currently pending waiter exactly
once — it resolves the pending promise, turning every `waitingForWork`
worker back into a `looping` one, clears the slot, and a repeated notify
changes nothing further — and it is a complete no-op when no waiter is
pending, leaving **no permit** behind (so an arm that follows such a notify
does block until the next notify).  Lost wakeups are nonetheless avoided at
the system level, because a worker arms the signal only in the same atomic
synchronous segment in which it observed an empty queue: no reachable state
has a worker suspended on the signal while the queue is non-empty. -/
theorem claim_C8_amended :
    ∀ (T P R δ : Type) (D : Delivery T P R δ) (C : Nat) (d : δ)
      (s : EngineState T P R δ),
      (s.workAvailable = true →
        (notifyWorkersOfNewWork s).workAvailable = false ∧
        (notifyWorkersOfNewWork s).workers = s.workers.map wakeWorker ∧
        wakeWorker (.waitingForWork : WorkerState T P R) = .looping ∧
        (∀ w : WorkerState T P R, w ≠ .waitingForWork → wakeWorker w = w)) ∧
      notifyWorkersOfNewWork (notifyWorkersOfNewWork s) =
        notifyWorkersOfNewWork s ∧
      (Reachable D C d s →
        (WorkerState.waitingForWork : WorkerState T P R) ∉ s.workers →
        notifyWorkersOfNewWork s = s) ∧
      (Reachable D C d s → s.queue ≠ [] →
        (WorkerState.waitingForWork : WorkerState T P R) ∉ s.workers) := by
  intro T P R δ D C d s
  refine ⟨?_, notify_idem s, ?_, ?_⟩
  · intro h
    unfold notifyWorkersOfNewWork
    rw [h]
    refine ⟨rfl, rfl, rfl, ?_⟩
    intro w hw
    cases w with
    | looping => rfl
    | waitingForWork => exact absurd rfl hw
    | running j => rfl
    | terminated => rfl
  · intro hr hnw
    have hInv := reachable_engineInv hr
    have hwa : s.workAvailable = false := by
      cases hwa : s.workAvailable
      · rfl
      · exact absurd (hInv.armedIff.1 hwa) hnw
    exact notify_noop hwa
  · intro hr hq
    exact (reachable_engineInv hr).noLostWakeup hq

def wp4 : EngineState Nat Nat Nat (List Nat) :=
  { wp3 with workAvailable := true, workers := [] ++ .waitingForWork :: [] }

/-- C8 counterexample: the claim asserts that if `notify()` happens
strictly before `waitForWork()` is (re-)armed, the next arm does not block.
In this concrete run of a `ConcurrentWorkerPool` with concurrency 1,
`notifyWorkersOfNewWork` runs (inside `enqueue`, the first step) strictly
before the worker re-arms the signal (the last step) — and, the job having
been taken and completed in between, no waiter was pending at any notify,
so each notify was a complete no-op (conjunct 2 exhibits this at the state
just before the arm).  The arm nevertheless blocks: the final state has the
worker suspended (`waitingForWork`) on a pending, unresolved
`workAvailablePromise` (`workAvailable = true`), where it remains until
some future notify.  A notify with no pending waiter leaves no permit, so
the claimed primitive-level property is false of the code. -/
theorem claim_C8_counterexample :
    Reachable (promiseDelivery Nat Nat Nat) 1 [] wp4 ∧
    notifyWorkersOfNewWork wp3 = wp3 ∧
    wp4.workers = [WorkerState.waitingForWork] ∧
    wp4.workAvailable = true := by
  refine ⟨wp_reach3.step (Step.blockWorker wp3 [] [] rfl rfl rfl),
    notify_noop rfl, rfl, rfl⟩

theorem claim_C8_witness :
    (notifyWorkersOfNewWork wp4).workAvailable = false ∧
    (notifyWorkersOfNewWork wp4).workers = wp4.workers.map wakeWorker ∧
    notifyWorkersOfNewWork (notifyWorkersOfNewWork wp4)
      = notifyWorkersOfNewWork wp4 ∧
    notifyWorkersOfNewWork wp3 = wp3 ∧
    (WorkerState.waitingForWork : WorkerState Nat Nat Nat) ∉ wp1.workers := by
  have h4 := claim_C8_amended Nat Nat Nat (List Nat)
    (promiseDelivery Nat Nat Nat) 1 [] wp4
  have h3 := claim_C8_amended Nat Nat Nat (List Nat)
    (promiseDelivery Nat Nat Nat) 1 [] wp3
  have h1 := claim_C8_amended Nat Nat Nat (List Nat)
    (promiseDelivery Nat Nat Nat) 1 [] wp1
  refine ⟨(h4.1 rfl).1, (h4.1 rfl).2.1, h4.2.1, ?_, ?_⟩
  · exact h3.2.2.1 wp_reach3 (by decide)
  · exact h1.2.2.2
      (Reachable.init.step (Step.enqueue wp0 wJobA rfl)) (by decide)

/-- C9: For every job that remains in flight, the watchdog fires once per
60000-time-unit interval for as long as the job runs — `duration / 60000`
firings in all — and stops when the job completes (every firing time is at
most `startTime + duration`; the list is exhaustive).  The `k`-th report
(counting from 0) happens at `startTime + 60000·(k+1)` and carries the
fixed message `'Long-running job detected.'`, the payload
`{minutes: floor((now − startTime) / 60000)} = {minutes: k+1}`, and the
merged payload of the worker's `workerId` with the job's `properties`. -/
theorem claim_C9 :
    ∀ (P : Type) (t0 dur wid : Nat) (p : P),
      (watchdogWarns t0 dur wid p).length = dur / 60000 ∧
      (∀ k e, (watchdogWarns t0 dur wid p).get? k = some e →
        e.1 = t0 + 60000 * (k + 1) ∧
        e.1 ≤ t0 + dur ∧
        e.2.message = "Long-running job detected." ∧
        e.2.minutes = (e.1 - t0) / 60000 ∧
        e.2.minutes = k + 1 ∧
        e.2.workerId = wid ∧ e.2.properties = p) := by
  intro P t0 dur wid p
  constructor
  · unfold watchdogWarns
    rw [List.length_map, List.length_range]
  · intro k e h
    have hk : k < dur / 60000 := by
      by_contra hk
      have hnone : (watchdogWarns t0 dur wid p).get? k = none := by
        refine List.get?_eq_none.2 ?_
        unfold watchdogWarns
        rw [List.length_map, List.length_range]
        omega
      rw [hnone] at h
      cases h
    have hget : (watchdogWarns t0 dur wid p).get? k =
        some (t0 + 60000 * (k + 1),
          { message := "Long-running job detected."
            minutes := (t0 + 60000 * (k + 1) - t0) / 60000
            workerId := wid
            properties := p }) := by
      unfold watchdogWarns
      rw [List.get?_map, List.get?_range hk]
      rfl
    rw [hget] at h
    cases h
    refine ⟨rfl, by omega, rfl, rfl, ?_, rfl, rfl⟩
    show (t0 + 60000 * (k + 1) - t0) / 60000 = k + 1
    omega

theorem claim_C9_witness :
    (watchdogWarns 0 70000 1 (42 : Nat)).length = 1 ∧
    (60000 : Nat) = 0 + 60000 * (0 + 1) ∧
    ({ message := "Long-running job detected.", minutes := 1, workerId := 1,
        properties := 42 } : WarnCall Nat).minutes = 0 + 1 ∧
    ({ message := "Long-running job detected.", minutes := 1, workerId := 1,
        properties := 42 } : WarnCall Nat).workerId = 1 := by
  have h := claim_C9 Nat 0 70000 1 42
  have h0 := h.2 0 (60000,
    { message := "Long-running job detected.", minutes := 1, workerId := 1,
      properties := 42 }) rfl
  exact ⟨h.1.trans (by norm_num), h0.1, h0.2.2.2.2.1, h0.2.2.2.2.2.1⟩

/-- C10: In the accumulate variant (`ConcurrentJobQueue`), `getResults`
returns the internal results array itself — the reference held in
`this.results` — not a copy: in every reachable engine state it returns the
very reference allocated at construction, so (i) a reference obtained
earlier observes subsequently completed Outcomes (after a completion step,
dereferencing the previously returned reference shows the new Outcome
appended), and (ii) a caller mutating the array behind the returned
reference alters the engine's recorded results. -/
theorem claim_C10 :
    ∀ (T P R : Type) (C : Nat) (s : EngineState T P R (AccDelivery T P R))
      (pre post : List (WorkerState T P R)) (j : JobWithId T P R)
      (v : List (JobResult T P R)),
      Reachable (accDelivery T P R) C (accInit T P R) s →
      getResults s
        = getResults (initState (accInit T P R) :
            EngineState T P R (AccDelivery T P R)) ∧
      (s.workers = pre ++ .running j :: post →
        (completeJob (accDelivery T P R) s pre post j).delivery.1.read
            (getResults s)
          = recordedResults s ++ [settle j.toJob]) ∧
      recordedResults
        { s with delivery :=
            (s.delivery.1.overwrite (getResults s) v, s.delivery.2) } = v := by
  intro T P R C s pre post j v hr
  obtain ⟨href, hlen⟩ := acc_ref_stable hr
  refine ⟨?_, ?_, ?_⟩
  · show s.delivery.2 = _
    rw [href]
    rfl
  · intro hw
    unfold completeJob
    rw [checkIfIdle_delivery]
    show (s.delivery.1.push s.delivery.2 (settle j.toJob)).read
      s.delivery.2 = _
    rw [OutcomeStore.read_push (by rw [href, hlen]; omega) _]
    rfl
  · show (s.delivery.1.overwrite s.delivery.2 v).read s.delivery.2 = v
    exact OutcomeStore.read_overwrite (by rw [href, hlen]; omega) v

def wa0 : EngineState Nat Nat Nat (AccDelivery Nat Nat Nat) :=
  initState (accInit Nat Nat Nat)

def wa1 : EngineState Nat Nat Nat (AccDelivery Nat Nat Nat) :=
  enqueueBody (accDelivery Nat Nat Nat) 1 wa0 wJobA

def wa2 : EngineState Nat Nat Nat (AccDelivery Nat Nat Nat) :=
  { wa1 with
    queue := []
    activeJobs := wa1.activeJobs + 1
    workers := [] ++ .running wJW0 :: [] }

theorem claim_C10_witness :
    getResults wa2 = getResults wa0 ∧
    (completeJob (accDelivery Nat Nat Nat) wa2 [] [] wJW0).delivery.1.read
        (getResults wa2)
      = recordedResults wa2 ++ [settle wJW0.toJob] ∧
    recordedResults
      { wa2 with delivery :=
          (wa2.delivery.1.overwrite (getResults wa2)
            [JobResult.fulfilled 3 4], wa2.delivery.2) }
      = [JobResult.fulfilled 3 4] := by
  have hr : Reachable (accDelivery Nat Nat Nat) 1 (accInit Nat Nat Nat) wa2 :=
    (Reachable.init.step (Step.enqueue wa0 wJobA rfl)).step
      (Step.startJob wa1 [] [] wJW0 [] rfl rfl)
  have h := claim_C10 Nat Nat Nat 1 wa2 [] [] wJW0
    [JobResult.fulfilled 3 4] hr
  exact ⟨h.1, h.2.1 rfl, h.2.2⟩
